import Mathlib

/-! The byte-stream toolkit of gonalg-basics.

A shallow embedding of

* `third-sprint/second-topic/second-lesson/task.go` (`LimitingReader`),
* `third-sprint/third-topic/first-lesson/task.go` (`SliceError`, `MyCheck`),
* `third-sprint/second-topic/second-lesson/{example,task}-randbyte/randbyte/randbyte.go`
  (`generator`),
* `second-sprint/first-topic/third-lesson/task2.go` (`RemoveDuplicates`) and `task1.go`
  (`firstSolution`, `secondSolution`),
* `second-sprint/third-topic/fifth-lesson/arrint.go` (`Add`),
* `second-sprint/third-topic/first-lesson/example-project/mathSlice/mathSlice.go`
  (`SumSlice`, `MapSlice`, `FoldSlice`).

Conventions.

* A Go `[]byte` is the list of its `len` elements; a callee that receives a slice
  returns the new contents of that slice, of the same length.  Where the capacity of a
  slice matters (what an inner reader can reach beyond the view `p[0:r.bytesLeft]`), the
  elements between `len` and `cap` are carried as a second list (`CapReader`).
* A Go `int` / `int64` is an `Int`; arithmetic that can leave the 64-bit range is
  wrapped with `wrapInt64`.
* A Go call that can raise a run-time fault returns `Option`; `none` is the fault.
-/

namespace GoNalg

/-- A byte; every value written by the code below is reduced modulo 256. -/
abbrev Byte := Nat

/-- Two's-complement wrap-around of a mathematical integer into the `int64` range. -/
def wrapInt64 (x : Int) : Int := (x + 2 ^ 63) % 2 ^ 64 - 2 ^ 63

/-- The `error` values an `io.Reader` hands back: `nil`, the sentinel `io.EOF`,
or some other failure identified by its message. -/
inductive Err where
  | nil
  | EOF
  | other (msg : String)
deriving DecidableEq, Repr

/-- What one call `Read(p)` leaves behind: the callee's new state, the new contents of
`p`, and the returned pair `(n, err)`. -/
structure ReadResult (σ : Type) where
  state : σ
  buf : List Byte
  n : Int
  err : Err

/-- An `io.Reader` whose receiver state has type `σ`.  `Read s p` is `none` when the call
faults.  A callee cannot change the length of the caller's slice (`len_ok`). -/
structure Reader (σ : Type) where
  Read : σ → List Byte → Option (ReadResult σ)
  len_ok : ∀ s p out, Read s p = some out → out.buf.length = p.length

/-- The stream contract of `io.Reader`: a call returns, and its count `k` satisfies
`0 ≤ k ≤ len(p)`. -/
def Reader.Obeys {σ : Type} (R : Reader σ) : Prop :=
  ∀ s p, ∃ out, R.Read s p = some out ∧ 0 ≤ out.n ∧ out.n ≤ p.length

/-! ## `LimitingReader` (task.go, lines 10-32) -/

/-- The Go struct `LimitingReader`: the receiver state of the wrapped reader and the
remaining budget. -/
structure LimitingReader (σ : Type) where
  reader : σ
  bytesLeft : Int

/-- The Go constructor `LimitReader(r, n)`. -/
def LimitReader {σ : Type} (r : σ) (n : Int) : LimitingReader σ :=
  { reader := r, bytesLeft := n }

/-- The slice expression `p[0:hi]`: faults when `hi` is negative or exceeds the slice.
(Go bounds `hi` by `cap(p)`; the code only evaluates it with `hi < len(p)`.) -/
def sliceTo (p : List Byte) (hi : Int) : Option (List Byte) :=
  if 0 ≤ hi ∧ hi ≤ p.length then some (p.take hi.toNat) else none

/-- The second statement of `Read`, `if r.bytesLeft < len(p) { p = p[0:r.bytesLeft] }`:
the slice that is handed to the inner reader. -/
def LimitingReader.view (bytesLeft : Int) (p : List Byte) : Option (List Byte) :=
  if bytesLeft < p.length then sliceTo p bytesLeft else some p

/-- The method `(*LimitingReader).Read`.

```go
if r.bytesLeft == 0 { return 0, io.EOF }
if r.bytesLeft < len(p) { p = p[0:r.bytesLeft] }
n, err := r.reader.Read(p)
r.bytesLeft -= n
return n, err
```

The caller's buffer afterwards is what the inner reader left in the view handed to it,
followed by the bytes of `p` outside that view. -/
def LimitingReader.Read {σ : Type} (R : Reader σ) (r : LimitingReader σ) (p : List Byte) :
    Option (ReadResult (LimitingReader σ)) :=
  if r.bytesLeft = 0 then
    some { state := r, buf := p, n := 0, err := Err.EOF }
  else
    match LimitingReader.view r.bytesLeft p with
    | none => none
    | some q =>
      match R.Read r.reader q with
      | none => none
      | some out =>
        some { state := { reader := out.state, bytesLeft := wrapInt64 (r.bytesLeft - out.n) }
               buf := out.buf ++ p.drop q.length
               n := out.n
               err := out.err }

/-- The value `LimitReader(r, n)` seen as an `io.Reader`: its receiver state is a
`LimitingReader`, its method is `LimitingReader.Read`. -/
def limitReader {σ : Type} (R : Reader σ) : Reader (LimitingReader σ) where
  Read := LimitingReader.Read R
  len_ok := by
    intro r p res h
    unfold LimitingReader.Read at h
    split at h
    · cases h; rfl
    · split at h
      · cases h
      · rename_i q hq
        split at h
        · cases h
        · rename_i out hout
          cases h
          have hlen := R.len_ok _ _ _ hout
          have hq2 : q.length ≤ p.length := by
            unfold LimitingReader.view at hq
            split at hq
            · unfold sliceTo at hq
              split at hq
              · cases hq; simp
              · cases hq
            · cases hq; exact le_refl _
          simp only [List.length_append, List.length_drop, hlen]
          omega

/-- A recording wrapper around a reader: the receiver state carries the list of buffers
the wrapped reader has been called with, oldest first. -/
def spy {σ : Type} (R : Reader σ) : Reader (σ × List (List Byte)) where
  Read := fun s p =>
    match R.Read s.1 p with
    | none => none
    | some out =>
      some { state := (out.state, s.2 ++ [p]), buf := out.buf, n := out.n, err := out.err }
  len_ok := by
    intro s p res h
    dsimp only at h
    split at h
    · cases h
    · rename_i out hout
      cases h
      exact R.len_ok _ _ _ hout

/-- What the caller observes from one `Read`: the buffer afterwards and the pair
`(n, err)`. -/
structure Outcome where
  buf : List Byte
  n : Int
  err : Err
deriving DecidableEq, Repr

/-- A finite sequence of `Read` calls, one per buffer of the list, on one reader; the
result is the final receiver state and the outcome of every call, in call order. -/
def Reader.run {σ : Type} (R : Reader σ) : σ → List (List Byte) → Option (σ × List Outcome)
  | s, [] => some (s, [])
  | s, p :: ps =>
    match R.Read s p with
    | none => none
    | some out =>
      match R.run out.state ps with
      | none => none
      | some (s', os) => some (s', { buf := out.buf, n := out.n, err := out.err } :: os)

/-- The sum of the counts of a list of outcomes. -/
def totalCount (os : List Outcome) : Int := (os.map (fun o => o.n)).sum

/-- The pull loop of a consumer such as `io.Copy`: call `Read` on the same buffer until
the error is non-nil, collecting the `n` bytes each call delivers.  `fuel` bounds the
number of calls; the result is the bytes delivered and the error that ended the loop. -/
def readUntilErr {σ : Type} (R : Reader σ) :
    Nat → σ → List Byte → List Byte → Option (List Byte × Err)
  | 0, _, _, _ => none
  | fuel + 1, s, buf, acc =>
    match R.Read s buf with
    | none => none
    | some out =>
      let acc' := acc ++ out.buf.take out.n.toNat
      if out.err = Err.nil then readUntilErr R fuel out.state out.buf acc'
      else some (acc', out.err)

/-! ## Slices with their capacity

The slice `p[0:r.bytesLeft]` of `Read` keeps the capacity of `p`: the callee can reslice it
and reach the elements of the backing array beyond its `len`.  Here a slice is given by two
lists, its `len` elements and the elements between its `len` and its `cap`. -/

/-- What one call `Read(p)` leaves behind when the capacity of `p` is taken into account:
the new state, the new contents of the `len` elements of `p`, the new contents of the
elements between `len(p)` and `cap(p)`, and the returned pair. -/
structure CapResult (σ : Type) where
  state : σ
  buf : List Byte
  beyond : List Byte
  n : Int
  err : Err

/-- An `io.Reader` that is handed the slice with its capacity: `Read s p extra` receives
the `len` elements `p` and the elements `extra` between `len` and `cap`.  The callee can
change no length. -/
structure CapReader (σ : Type) where
  Read : σ → List Byte → List Byte → Option (CapResult σ)
  len_ok : ∀ s p extra out, Read s p extra = some out →
    out.buf.length = p.length ∧ out.beyond.length = extra.length

/-- The method `(*LimitingReader).Read` with the capacity of `p` taken into account.  The
view `q = p[0:r.bytesLeft]` (or `p` itself) has `len(q)` elements and, beyond them, the rest
of `p` followed by what lay beyond `p`; afterwards the caller's `p` is what the inner reader
left in those places. -/
def LimitingReader.ReadCap {σ : Type} (R : CapReader σ) (r : LimitingReader σ)
    (p extra : List Byte) : Option (CapResult (LimitingReader σ)) :=
  if r.bytesLeft = 0 then
    some { state := r, buf := p, beyond := extra, n := 0, err := Err.EOF }
  else
    match LimitingReader.view r.bytesLeft p with
    | none => none
    | some q =>
      match R.Read r.reader q (p.drop q.length ++ extra) with
      | none => none
      | some out =>
        some { state := { reader := out.state, bytesLeft := wrapInt64 (r.bytesLeft - out.n) }
               buf := out.buf ++ out.beyond.take (p.length - q.length)
               beyond := out.beyond.drop (p.length - q.length)
               n := out.n
               err := out.err }

/-- A reader that keeps within the `len` of the slice it is given, seen as a reader that is
handed the capacity too: the elements beyond `len` are left as they are. -/
def capOf {σ : Type} (R : Reader σ) : CapReader σ where
  Read := fun s p extra =>
    match R.Read s p with
    | none => none
    | some out =>
      some { state := out.state, buf := out.buf, beyond := extra, n := out.n, err := out.err }
  len_ok := by
    intro s p extra res h
    dsimp only at h
    split at h
    · cases h
    · rename_i out hout
      cases h
      exact ⟨R.len_ok _ _ _ hout, rfl⟩

/-- A recording wrapper around a capacity-aware reader: the state carries the list of the
slices (their `len` elements) the wrapped reader has been called with, oldest first. -/
def spyCap {σ : Type} (R : CapReader σ) : CapReader (σ × List (List Byte)) where
  Read := fun s p extra =>
    match R.Read s.1 p extra with
    | none => none
    | some out =>
      some { state := (out.state, s.2 ++ [p]), buf := out.buf, beyond := out.beyond,
             n := out.n, err := out.err }
  len_ok := by
    intro s p extra res h
    dsimp only at h
    split at h
    · cases h
    · rename_i out hout
      cases h
      exact R.len_ok _ _ _ _ hout

/-- A reader that fills the whole capacity of the slice it is given with `0xFF`:

```go
func (scribbler) Read(p []byte) (int, error) {
    q := p[:cap(p)]
    for i := range q { q[i] = 0xFF }
    return len(p), nil
}
```
-/
def scribbler : CapReader Unit where
  Read := fun _ p extra =>
    some { state := (), buf := p.map (fun _ => 0xFF), beyond := extra.map (fun _ => 0xFF),
           n := p.length, err := Err.nil }
  len_ok := by
    intro s p extra res h
    cases h
    exact ⟨List.length_map _ _, List.length_map _ _⟩

/-! ## `strings.Reader` (Go standard library), the inner stream of `main` -/

/-- The receiver of `strings.NewReader(s)`: the string's bytes and the read index. -/
structure StringsReader where
  s : List Byte
  i : Nat

/-- `strings.NewReader`. -/
def StringsReader.NewReader (s : List Byte) : StringsReader := { s := s, i := 0 }

/-- `(*strings.Reader).Read` of the Go standard library:

```go
if r.i >= int64(len(r.s)) { return 0, io.EOF }
n = copy(b, r.s[r.i:])
r.i += int64(n)
return
```
-/
def StringsReader.Read (r : StringsReader) (b : List Byte) : Option (ReadResult StringsReader) :=
  if r.i ≥ r.s.length then
    some { state := r, buf := b, n := 0, err := Err.EOF }
  else
    let n := min b.length (r.s.length - r.i)
    some { state := { r with i := r.i + n }
           buf := (r.s.drop r.i).take n ++ b.drop n
           n := n
           err := Err.nil }

/-- The `io.Reader` method table of `strings.Reader`. -/
def stringsReader : Reader StringsReader where
  Read := StringsReader.Read
  len_ok := by
    intro r b res h
    unfold StringsReader.Read at h
    split at h
    · cases h; rfl
    · cases h
      simp only [List.length_append, List.length_take, List.length_drop]
      omega

/-- The bytes of the literal of `main`, `"some io.Reader stream to be read\n"`. -/
def mainLiteral : List Byte :=
  [0x73, 0x6F, 0x6D, 0x65, 0x20, 0x69, 0x6F, 0x2E, 0x52, 0x65, 0x61, 0x64, 0x65, 0x72, 0x20, 0x73, 0x74, 0x72, 0x65, 0x61, 0x6D, 0x20, 0x74, 0x6F, 0x20, 0x62, 0x65, 0x20, 0x72, 0x65, 0x61, 0x64, 0x0A]

/-! ## `SliceError` and `MyCheck` (third-topic/first-lesson/task.go)

A Go string enters the code below only through its sequence of runes (`[]rune(input)` and
`for _, ch := range input` decode it the same way), so the input is the `String` made of
those runes.  A non-nil `error` value enters only through what `Error()` returns. -/

/-- A non-nil value of the interface `error`, given by the text its method `Error()`
returns. -/
structure GoError where
  Error : String
deriving DecidableEq, Repr

/-- `errors.New(text)`. -/
def errors.New (text : String) : GoError := { Error := text }

/-- `strings.Join(elems, sep)` of the Go standard library:

```go
switch len(elems) {
case 0: return ""
case 1: return elems[0]
}
b.WriteString(elems[0])
for _, s := range elems[1:] { b.WriteString(sep); b.WriteString(s) }
return b.String()
```
-/
def strings.Join : List String → String → String
  | [], _ => ""
  | [e], _ => e
  | e :: rest, sep => rest.foldl (fun b s => (b ++ sep) ++ s) e

/-- The Go type `SliceError []error`. -/
abbrev SliceError := List GoError

/-- The method `SliceError.Error`:

```go
var out []string
for _, err := range errors { out = append(out, err.Error()) }
return strings.Join(out, `;`)
```
-/
def SliceError.Error (errors : SliceError) : String :=
  let out : List String := errors.foldl (fun out err => out ++ [err.Error]) []
  strings.Join out ";"

/-- The loop of `MyCheck` over the runes of the input, on the pair `(spaces, hasDigit)`:

```go
if ch == ' ' { spaces++ } else if ch >= '0' && ch <= '9' { hasDigit = true }
```
-/
def MyCheck.scan (st : Nat × Bool) (ch : Char) : Nat × Bool :=
  if ch = ' ' then (st.1 + 1, st.2)
  else if '0' ≤ ch ∧ ch ≤ '9' then (st.1, true)
  else st

/-- The function `MyCheck`; `none` is the `nil` error, `some err` the `SliceError` returned. -/
def MyCheck (input : String) : Option SliceError :=
  let err : SliceError :=
    if input.data.length ≥ 20 then [errors.New "Line is too long"] else []
  let st := input.data.foldl MyCheck.scan (0, false)
  let spaces := st.1
  let hasDigit := st.2
  let err := if hasDigit then err ++ [errors.New "found numbers"] else err
  let err := if spaces < 2 then err ++ [errors.New "no 2 spaces"] else err
  if err.length = 0 then none else some err

/-- The reasons an `error` returned by `MyCheck` carries: none for `nil`, otherwise the
messages of the elements of the `SliceError`, in slice order. -/
def MyCheck.reasons : Option SliceError → List String
  | none => []
  | some err => err.map (fun e => e.Error)

/-- The reasons of the rules an input violates, in the fixed rule order: 20 runes or more;
some character among `'0'..'9'`; fewer than 2 space characters. -/
def MyCheck.violations (input : String) : List String :=
  (if 20 ≤ input.length then ["Line is too long"] else []) ++
  (if ∃ c ∈ input.data, '0' ≤ c ∧ c ≤ '9' then ["found numbers"] else []) ++
  (if input.data.count ' ' < 2 then ["no 2 spaces"] else [])

/-- The text `m1;m2;...;mk` for a separator `;`: nothing for no message, the message itself
for one, and otherwise the first message, the separator and the text of the others. -/
def joinedWith (sep : String) : List String → String
  | [] => ""
  | [m] => m
  | m :: m' :: ms => (m ++ sep) ++ joinedWith sep (m' :: ms)

/-! ## The generators (`example-randbyte` and `task-randbyte`) -/

/-- The interface `rand.Source` of the Go standard library together with `rand.NewSource`:
a state type, the deterministic seeding function, and the draw `Int63`, which returns the
value drawn and the advanced state. -/
structure Source (σ : Type) where
  NewSource : Int → σ
  Int63 : σ → Int × σ

/-- The conversion `byte(x)` of an `int64`: its low eight bits. -/
def byteOf (x : Int) : Byte := (x % 256).toNat

/-- The conversion `uint64(x)` of an `int64`. -/
def uint64Of (x : Int) : Nat := (x % 2 ^ 64).toNat

/-- The call `binary.LittleEndian.PutUint64(bytes[i:i+8], v)`: byte `j` of the window
receives bits `8j .. 8j+7` of `v`. -/
def putUint64 (bytes : List Byte) (i : Nat) (v : Nat) : List Byte :=
  (List.range 8).foldl (fun b j => b.set (i + j) (v / 256 ^ j % 256)) bytes

namespace ExampleRandbyte

/-- The Go struct `generator` of `example-randbyte`. -/
structure generator (σ : Type) where
  rnd : σ

/-- The constructor `New(seed)`. -/
def New {σ : Type} (S : Source σ) (seed : Int) : generator σ := { rnd := S.NewSource seed }

/-- The body of `for i := range bytes`: one draw, one byte stored. -/
def generator.step {σ : Type} (S : Source σ) (st : σ × List Byte) (i : Nat) : σ × List Byte :=
  let randInt := (S.Int63 st.1).1
  let randByte := byteOf randInt
  ((S.Int63 st.1).2, st.2.set i randByte)

/-- The method `(*generator).Read` of `example-randbyte`:

```go
for i := range bytes { randInt := g.rnd.Int63(); randByte := byte(randInt); bytes[i] = randByte }
return len(bytes), nil
```
-/
def generator.Read {σ : Type} (S : Source σ) (g : generator σ) (bytes : List Byte) :
    Option (ReadResult (generator σ)) :=
  let st := (List.range bytes.length).foldl (generator.step S) (g.rnd, bytes)
  some { state := { rnd := st.1 }, buf := st.2, n := bytes.length, err := Err.nil }

/-- The generator of `example-randbyte` as an `io.Reader`. -/
def reader {σ : Type} (S : Source σ) : Reader (generator σ) where
  Read := generator.Read S
  len_ok := by
    intro g p out h
    cases h
    have key : ∀ (l : List Nat) (st : σ × List Byte),
        (l.foldl (generator.step S) st).2.length = st.2.length := by
      intro l
      induction l with
      | nil => intro st; rfl
      | cons i l ih =>
        intro st
        rw [List.foldl_cons, ih]
        simp [generator.step]
    exact key _ _

end ExampleRandbyte

namespace TaskRandbyte

/-- The Go struct `generator` of `task-randbyte`. -/
structure generator (σ : Type) where
  rnd : σ

/-- The constructor `New(seed)`. -/
def New {σ : Type} (S : Source σ) (seed : Int) : generator σ := { rnd := S.NewSource seed }

/-- The loop `for i := 0; i+8 < len(bytes); i += 8 { ... }` from index `i` on; `fuel` bounds
the number of iterations. -/
def generator.loop {σ : Type} (S : Source σ) : Nat → Nat → σ → List Byte → σ × List Byte
  | 0, _, rnd, bytes => (rnd, bytes)
  | fuel + 1, i, rnd, bytes =>
    if i + 8 < bytes.length then
      let randInt := (S.Int63 rnd).1
      generator.loop S fuel (i + 8) (S.Int63 rnd).2 (putUint64 bytes i (uint64Of randInt))
    else (rnd, bytes)

/-- The method `(*generator).Read` of `task-randbyte`:

```go
for i := 0; i+8 < len(bytes); i += 8 {
    randInt := g.rnd.Int63()
    binary.LittleEndian.PutUint64(bytes[i:i+8], uint64(randInt))
}
return len(bytes), nil
```

The loop runs fewer than `len(bytes)` times, so `len(bytes)` is enough fuel. -/
def generator.Read {σ : Type} (S : Source σ) (g : generator σ) (bytes : List Byte) :
    Option (ReadResult (generator σ)) :=
  let st := generator.loop S bytes.length 0 g.rnd bytes
  some { state := { rnd := st.1 }, buf := st.2, n := bytes.length, err := Err.nil }

/-- The generator of `task-randbyte` as an `io.Reader`. -/
def reader {σ : Type} (S : Source σ) : Reader (generator σ) where
  Read := generator.Read S
  len_ok := by
    intro g p out h
    cases h
    have hput : ∀ (b : List Byte) (i v : Nat), (putUint64 b i v).length = b.length := by
      intro b i v
      unfold putUint64
      have : ∀ (l : List Nat) (c : List Byte),
          (l.foldl (fun b j => b.set (i + j) (v / 256 ^ j % 256)) c).length = c.length := by
        intro l
        induction l with
        | nil => intro c; rfl
        | cons j l ih => intro c; rw [List.foldl_cons, ih]; simp
      exact this _ _
    have key : ∀ (fuel i : Nat) (rnd : σ) (b : List Byte),
        (generator.loop S fuel i rnd b).2.length = b.length := by
      intro fuel
      induction fuel with
      | zero => intro i rnd b; rfl
      | succ fuel ih =>
        intro i rnd b
        unfold generator.loop
        split
        · rw [ih, hput]
        · rfl
    exact key _ _ _ _

end TaskRandbyte

/-- A linear congruential `rand.Source` whose state is the last value: a concrete source
for examples. -/
def lcgSource : Source Nat where
  NewSource := fun seed => (seed % 2 ^ 63).toNat
  Int63 := fun s =>
    let v : Nat := (6364136223846793005 * s + 1442695040888963407) % 2 ^ 63
    ((v : Int), v)

/-- The same generator as `lcgSource` with a second state component counting the draws. -/
def lcgCountingSource : Source (Nat × Nat) where
  NewSource := fun seed => ((seed % 2 ^ 63).toNat, 0)
  Int63 := fun s =>
    let v : Nat := (6364136223846793005 * s.1 + 1442695040888963407) % 2 ^ 63
    ((v : Int), (v, s.2 + 1))

/-- The first `m` values drawn from a source state, in draw order, and the state after
them. -/
def Source.draws {σ : Type} (S : Source σ) : Nat → σ → List Int × σ
  | 0, rnd => ([], rnd)
  | m + 1, rnd =>
    let r := S.draws m (S.Int63 rnd).2
    ((S.Int63 rnd).1 :: r.1, r.2)

/-- The little-endian encoding of a 64-bit value: eight bytes, least significant first. -/
def littleEndian64 (v : Nat) : List Byte := (List.range 8).map (fun j => v / 256 ^ j % 256)

/-! ## `RemoveDuplicates` (second-sprint/first-topic/third-lesson/task2.go) -/

/-- The variables of the loop of `RemoveDuplicates`: the backing array of `input` (its
length is the original `len(input)` and never changes), the current `len(input)`, and the
map `m` as the list of its assignments, latest first. -/
structure RemoveDuplicates.State where
  arr : List String
  len : Nat
  m : List (String × Nat)

/-- The statement `input = append(input[:idx], input[idx+1:]...)` for `idx < len(input)`:
the append fits the capacity, so it moves `input[idx+1:]` one place down inside the backing
array; the elements from index `len(input) - 1` on keep their values. -/
def RemoveDuplicates.deleteAt (arr : List String) (len idx : Nat) : List String :=
  arr.take idx ++ (arr.drop (idx + 1)).take (len - (idx + 1)) ++ arr.drop (len - 1)

/-- One iteration of `for i, value := range input`.  The range expression is evaluated
once, so `i` runs over the original indices and `value` is read from the backing array at
index `i` when the iteration starts.

```go
if idx, ok := m[value]; ok {
    if len(input) != 0 && idx < len(input) {
        input = append(input[:idx], input[idx+1:]...)
    }
}
m[value] = i
```
-/
def RemoveDuplicates.step (st : RemoveDuplicates.State) (i : Nat) : RemoveDuplicates.State :=
  let value := st.arr.getD i ""
  let st1 : RemoveDuplicates.State :=
    match st.m.lookup value with
    | some idx =>
      if st.len ≠ 0 ∧ idx < st.len then
        { st with arr := RemoveDuplicates.deleteAt st.arr st.len idx, len := st.len - 1 }
      else st
    | none => st
  { st1 with m := (value, i) :: st1.m }

/-- The function `RemoveDuplicates`: the loop over the original indices, then
`return input`, the first `len(input)` elements of the backing array. -/
def RemoveDuplicates (input : List String) : List String :=
  let st := (List.range input.length).foldl RemoveDuplicates.step
    { arr := input, len := input.length, m := [] }
  st.arr.take st.len

/-! ## `Add` (second-sprint/third-topic/fifth-lesson/arrint.go) -/

/-- The Go type `ArrInt []int`. -/
abbrev ArrInt := List Int

/-- The body of the loop of `Add`, `c[i] = a[i] + b[i]`, with `int` addition; an index out
of range is a fault. -/
def Add.step (a b : ArrInt) (c : Option ArrInt) (i : Nat) : Option ArrInt :=
  match c, a[i]?, b[i]? with
  | some c, some x, some y => if i < c.length then some (c.set i (wrapInt64 (x + y))) else none
  | _, _, _ => none

/-- The function `Add`:

```go
length := len(a)
if length-len(b) > 0 { length = len(b) }
c := make(ArrInt, length)
for i := 0; i < length; i++ { c[i] = a[i] + b[i] }
return c
```
-/
def Add (a b : ArrInt) : Option ArrInt :=
  let length : Int := if (a.length : Int) - (b.length : Int) > 0 then b.length else a.length
  (List.range length.toNat).foldl (Add.step a b) (some (List.replicate length.toNat 0))

/-! ## `mathSlice` (second-sprint/third-topic/first-lesson/example-project) -/

/-- The Go type `Element int`. -/
abbrev Element := Int

/-- The Go type `Slice []Element`. -/
abbrev Slice := List Element

/-- The function `SumSlice`: `for _, val := range slice { result += val }`. -/
def SumSlice (slice : Slice) : Element :=
  slice.foldl (fun result val => wrapInt64 (result + val)) 0

/-- A Go function value `func(Element) Element` as `MapSlice` receives it.  It may carry
state of its own and, being a closure, may read and write the elements of the slice that
`MapSlice` is working on: `apply t array x` takes its state, the backing array as it is when
the call is made and the argument, and gives the result, the backing array afterwards and
its new state.  It cannot change the length of the array. -/
structure SliceOp (τ : Type) where
  apply : τ → Slice → Element → Element × Slice × τ
  len_ok : ∀ t s x, (apply t s x).2.1.length = s.length

/-- One iteration of the loop of `MapSlice`, `slice[i] = op(val)`: `val` is the element at
index `i` when the iteration starts, `op(val)` is evaluated, then its result is stored at
index `i`. -/
def MapSlice.step {τ : Type} (op : SliceOp τ) (st : Option (Slice × τ)) (i : Nat) :
    Option (Slice × τ) :=
  match st with
  | none => none
  | some (slice, t) =>
    match slice[i]? with
    | none => none
    | some val =>
      let r := op.apply t slice val
      if i < r.2.1.length then some (r.2.1.set i r.1, r.2.2) else none

/-- The function `MapSlice`: `for i, val := range slice { slice[i] = op(val) }`.  The result
is the slice afterwards and the state `op` is left in. -/
def MapSlice {τ : Type} (slice : Slice) (op : SliceOp τ) (t : τ) : Option (Slice × τ) :=
  (List.range slice.length).foldl (MapSlice.step op) (some (slice, t))

/-- A function value made to record its calls: the state also carries the list of the pairs
(argument, result) of the calls made so far, in call order. -/
def traced {τ : Type} (op : SliceOp τ) : SliceOp (τ × List (Element × Element)) where
  apply := fun t s x =>
    ((op.apply t.1 s x).1, (op.apply t.1 s x).2.1,
      ((op.apply t.1 s x).2.2, t.2 ++ [(x, (op.apply t.1 s x).1)]))
  len_ok := fun t s x => op.len_ok t.1 s x

/-- A function value without state that leaves the slice alone: `func(x) { return f(x) }`. -/
def pureOp (f : Element → Element) : SliceOp Unit where
  apply := fun _ s x => (f x, s, ())
  len_ok := fun _ _ _ => rfl

/-- The closure `func(e Element) Element { s[2] = 100; return e * 2 }` over the slice `s`
that is passed to `MapSlice`. -/
def clobberingOp : SliceOp Unit where
  apply := fun _ s x => (wrapInt64 (x * 2), s.set 2 100, ())
  len_ok := by intro _ s _; simp

/-- One iteration of the loop of `FoldSlice`, `result = op(result, slice[i])`. -/
def FoldSlice.step (slice : Slice) (op : Element → Element → Element)
    (result : Option Element) (i : Nat) : Option Element :=
  match result, slice[i]? with
  | some r, some x => some (op r x)
  | _, _ => none

/-- The function `FoldSlice`; `slice[0]` on an empty slice is a fault.

```go
result = op(init, slice[0])
for i := 1; i < len(slice); i++ { result = op(result, slice[i]) }
return
```
-/
def FoldSlice (slice : Slice) (op : Element → Element → Element) (init : Element) :
    Option Element :=
  match slice[0]? with
  | none => none
  | some x0 =>
    (List.range' 1 (slice.length - 1)).foldl (FoldSlice.step slice op) (some (op init x0))

/-! ## Two-sum (second-sprint/first-topic/third-lesson/task1.go)

A `[]string` result is the list of its elements; the `nil` slice, which is what is returned
when nothing has been appended, is the empty list.  The indices used below are within range
by the loop conditions, so `array[i]` is `array.getD i 0`. -/

/-- The call `fmt.Sprintf("%d + %d, %d : %d", x, y, i, j)`. -/
def pairMessage (x y : Int) (i j : Nat) : String :=
  toString x ++ " + " ++ toString y ++ ", " ++ toString i ++ " : " ++ toString j

/-- The message both solutions build for the index pair `(i, j)`. -/
def messageOf (array : List Int) (ij : Nat × Nat) : String :=
  pairMessage (array.getD ij.1 0) (array.getD ij.2 0) ij.1 ij.2

/-- The body of the inner loop of `firstSolution`:

```go
if array[i]+array[j] == number {
    msg := fmt.Sprintf("%d + %d, %d : %d", array[i], array[j], i, j)
    returnSlice = append(returnSlice, msg)
}
```
-/
def firstSolution.inner (number : Int) (array : List Int) (i : Nat)
    (returnSlice : List String) (j : Nat) : List String :=
  if wrapInt64 (array.getD i 0 + array.getD j 0) = number then
    returnSlice ++ [pairMessage (array.getD i 0) (array.getD j 0) i j]
  else returnSlice

/-- The body of the outer loop of `firstSolution`: `for j := i + 1; j < len(array); j++`. -/
def firstSolution.outer (number : Int) (array : List Int) (returnSlice : List String)
    (i : Nat) : List String :=
  (List.range' (i + 1) (array.length - (i + 1))).foldl
    (firstSolution.inner number array i) returnSlice

/-- The function `firstSolution`: `for i := 0; i < len(array); i++`. -/
def firstSolution (number : Int) (array : List Int) : List String :=
  (List.range array.length).foldl (firstSolution.outer number array) []

/-- The variables of the loop of `secondSolution`: the result so far and the map `m` from a
value to the indices at which it has been seen. -/
structure secondSolution.State where
  returnSlice : List String
  m : Int → Option (List Nat)

/-- One iteration of `for i, value := range array` in `secondSolution`:

```go
need := number - value
if indices, ok := m[need]; ok {
    for _, idx := range indices {
        msg := fmt.Sprintf("%d + %d, %d : %d", array[idx], value, idx, i)
        returnSlice = append(returnSlice, msg)
    }
}
m[value] = append(m[value], i)
```
-/
def secondSolution.step (number : Int) (array : List Int) (st : secondSolution.State)
    (i : Nat) : secondSolution.State :=
  let value := array.getD i 0
  let need := wrapInt64 (number - value)
  let returnSlice :=
    match st.m need with
    | some indices =>
      indices.foldl
        (fun r idx => r ++ [pairMessage (array.getD idx 0) value idx i]) st.returnSlice
    | none => st.returnSlice
  { returnSlice := returnSlice
    m := fun key => if key = value then some ((st.m value).getD [] ++ [i]) else st.m key }

/-- The function `secondSolution`. -/
def secondSolution (number : Int) (array : List Int) : List String :=
  ((List.range array.length).foldl (secondSolution.step number array)
    { returnSlice := [], m := fun _ => none }).returnSlice

/-- The index pairs `(i, j)`, `i < j`, in the order `firstSolution` meets them. -/
def firstSolution.pairs (number : Int) (array : List Int) : List (Nat × Nat) :=
  (List.range array.length).flatMap (fun i =>
    ((List.range' (i + 1) (array.length - (i + 1))).filter
      (fun j => decide (wrapInt64 (array.getD i 0 + array.getD j 0) = number))).map
      (fun j => (i, j)))

/-- The index pairs `(idx, i)`, `idx < i`, in the order `secondSolution` meets them. -/
def secondSolution.pairs (number : Int) (array : List Int) : List (Nat × Nat) :=
  (List.range array.length).flatMap (fun i =>
    ((List.range i).filter
      (fun idx => decide (array.getD idx 0 = wrapInt64 (number - array.getD i 0)))).map
      (fun idx => (idx, i)))

/-- The slice `A` of `main` in task1.go. -/
def twoSumA : List Int := [1, 2, 4, 5, 6, 10, 5, 2, 3, 7, 0, 8, -2]

/-! # Properties -/

/-! ## Helper lemmas for `LimitingReader` -/

theorem wrapInt64_of_range (x : Int) (h0 : -(2 ^ 63) ≤ x) (h1 : x < 2 ^ 63) : wrapInt64 x = x := by
  unfold wrapInt64
  have h : (x + 2 ^ 63) % 2 ^ 64 = x + 2 ^ 63 := Int.emod_eq_of_lt (by omega) (by omega)
  omega

theorem limitReader_Read {σ : Type} (R : Reader σ) :
    (limitReader R).Read = LimitingReader.Read R := rfl

theorem LimitingReader.view_of_nonneg (b : Int) (p : List Byte) (hb : 0 ≤ b) :
    LimitingReader.view b p = some (p.take (min p.length b.toNat)) := by
  unfold LimitingReader.view
  split
  · rename_i hlt
    unfold sliceTo
    rw [if_pos ⟨hb, le_of_lt hlt⟩]
    have : min p.length b.toNat = b.toNat := by omega
    rw [this]
  · rename_i hge
    have : min p.length b.toNat = p.length := by omega
    rw [this, List.take_length]

theorem LimitingReader.Read_of_zero {σ : Type} (R : Reader σ) (r : LimitingReader σ)
    (p : List Byte) (h : r.bytesLeft = 0) :
    LimitingReader.Read R r p = some { state := r, buf := p, n := 0, err := Err.EOF } := by
  unfold LimitingReader.Read
  rw [if_pos h]

theorem LimitingReader.Read_of_pos {σ : Type} (R : Reader σ) (r : LimitingReader σ)
    (p : List Byte) (h : 0 < r.bytesLeft) :
    LimitingReader.Read R r p =
      (R.Read r.reader (p.take (min p.length r.bytesLeft.toNat))).map (fun out =>
        { state := { reader := out.state, bytesLeft := wrapInt64 (r.bytesLeft - out.n) }
          buf := out.buf ++ p.drop (min p.length r.bytesLeft.toNat)
          n := out.n
          err := out.err }) := by
  unfold LimitingReader.Read
  rw [if_neg (by omega), LimitingReader.view_of_nonneg _ _ (le_of_lt h)]
  dsimp only
  have hl : (p.take (min p.length r.bytesLeft.toNat)).length = min p.length r.bytesLeft.toNat := by
    rw [List.length_take]; omega
  cases hR : R.Read r.reader (p.take (min p.length r.bytesLeft.toNat)) with
  | none => rfl
  | some out => simp only [Option.map_some', hl]

/-- One `Read` of a limited `strings.Reader` with a positive budget on a non-empty buffer,
before the string is used up: `k = min (min len(buf) b) (len(s) - i)` bytes of `s` are
copied, the error is `nil`. -/
theorem LimitingReader.Read_strings_step (s : List Byte) (i b : Nat) (buf : List Byte)
    (hb : 0 < b) (hb63 : (b : Int) < 2 ^ 63) (hi : i < s.length) :
    LimitingReader.Read stringsReader { reader := { s := s, i := i }, bytesLeft := (b : Int) } buf =
      some { state := { reader := { s := s, i := i + min (min buf.length b) (s.length - i) }
                        bytesLeft := ((b - min (min buf.length b) (s.length - i) : Nat) : Int) }
             buf := (s.drop i).take (min (min buf.length b) (s.length - i)) ++
                      (buf.take (min buf.length b)).drop (min (min buf.length b) (s.length - i)) ++
                      buf.drop (min buf.length b)
             n := ((min (min buf.length b) (s.length - i) : Nat) : Int)
             err := Err.nil } := by
  rw [LimitingReader.Read_of_pos _ _ _ (by simpa using hb)]
  simp only [Int.toNat_ofNat]
  have hR : stringsReader.Read { s := s, i := i } (buf.take (min buf.length b)) =
      some { state := { s := s, i := i + min (min buf.length b) (s.length - i) }
             buf := (s.drop i).take (min (min buf.length b) (s.length - i)) ++
                      (buf.take (min buf.length b)).drop (min (min buf.length b) (s.length - i))
             n := ((min (min buf.length b) (s.length - i) : Nat) : Int)
             err := Err.nil } := by
    show StringsReader.Read _ _ = _
    unfold StringsReader.Read
    rw [if_neg (by simpa using hi)]
    have hl : (buf.take (min buf.length b)).length = min buf.length b := by
      rw [List.length_take]; omega
    simp only [hl]
  rw [hR]
  simp only [Option.map_some']
  have hw : wrapInt64 ((b : Int) - ((min (min buf.length b) (s.length - i) : Nat) : Int)) =
      ((b - min (min buf.length b) (s.length - i) : Nat) : Int) := by
    rw [wrapInt64_of_range _ (by omega) (by omega)]
    omega
  rw [hw]

/-- The pull loop on a limited `strings.Reader`, from any intermediate state. -/
theorem readUntilErr_limit_strings_aux (s : List Byte) :
    ∀ (fuel i b : Nat) (buf acc : List Byte), 0 < buf.length → (b : Int) < 2 ^ 63 →
      i ≤ s.length → min b (s.length - i) + 1 ≤ fuel →
      readUntilErr (limitReader stringsReader) fuel
          { reader := { s := s, i := i }, bytesLeft := (b : Int) } buf acc =
        some (acc ++ (s.drop i).take (min b (s.length - i)), Err.EOF) := by
  intro fuel
  induction fuel with
  | zero => intro i b buf acc _ _ _ h; omega
  | succ fuel ih =>
    intro i b buf acc hbuf hb63 hi hfuel
    unfold readUntilErr
    rw [limitReader_Read]
    rcases Nat.eq_zero_or_pos b with hb0 | hbpos
    · subst hb0
      rw [LimitingReader.Read_of_zero _ _ _ (by simp)]
      simp
    · rcases Nat.lt_or_ge i s.length with hlt | hge
      · rw [LimitingReader.Read_strings_step s i b buf hbpos hb63 hlt]
        dsimp only
        rw [if_pos rfl]
        have hk1 : 1 ≤ min (min buf.length b) (s.length - i) := by omega
        have hk2 : min (min buf.length b) (s.length - i) ≤ min b (s.length - i) := by omega
        generalize hk : min (min buf.length b) (s.length - i) = k at *
        have hkl : k ≤ (s.drop i).length := by rw [List.length_drop]; omega
        rw [ih (i + k) (b - k) _ _ (by
              simp only [List.length_append, List.length_take, List.length_drop]; omega)
            (by omega) (by omega) (by omega)]
        have htk : ((s.drop i).take k ++ (buf.take (min buf.length b)).drop k ++
            buf.drop (min buf.length b)).take (k : Int).toNat = (s.drop i).take k := by
          rw [Int.toNat_ofNat, List.append_assoc, List.take_append_of_le_length (by
            rw [List.length_take]; omega)]
          rw [List.take_take, min_self]
        rw [htk]
        have hm : min (b - k) (s.length - (i + k)) = min b (s.length - i) - k := by omega
        have hd : s.drop (i + k) = (s.drop i).drop k := by rw [List.drop_drop, Nat.add_comm]
        rw [hm, hd, List.append_assoc, ← List.take_add]
        have : k + (min b (s.length - i) - k) = min b (s.length - i) := by omega
        rw [this]
      · rw [LimitingReader.Read_of_pos _ _ _ (by simpa using hbpos)]
        have hR : stringsReader.Read { s := s, i := i }
            (buf.take (min buf.length ((b : Int)).toNat)) =
            some { state := { s := s, i := i }, buf := buf.take (min buf.length ((b : Int)).toNat)
                   n := 0, err := Err.EOF } := by
          show StringsReader.Read _ _ = _
          unfold StringsReader.Read
          rw [if_pos (by simpa using hge)]
        simp only [hR, Option.map_some']
        have : min b (s.length - i) = 0 := by omega
        simp [this]

theorem stringsReader_obeys : stringsReader.Obeys := by
  intro r b
  show ∃ out, StringsReader.Read r b = some out ∧ _
  unfold StringsReader.Read
  split
  · exact ⟨_, rfl, le_refl _, by simp⟩
  · refine ⟨_, rfl, ?_, ?_⟩
    · simp
    · simp only [Nat.cast_le]; omega

/-- One `Read` of a decorator with budget `0 ≤ b < 2^63` over a reader that obeys the stream
contract: the call returns, its count lies between `0` and `min b len(p)`, and the budget
drops by exactly the count. -/
theorem LimitingReader.Read_step_obeys {σ : Type} (R : Reader σ) (hR : R.Obeys) (s : σ)
    (b : Int) (p : List Byte) (hb : 0 ≤ b) (hb63 : b < 2 ^ 63) :
    ∃ res, LimitingReader.Read R { reader := s, bytesLeft := b } p = some res ∧
      0 ≤ res.n ∧ res.n ≤ b ∧ res.n ≤ p.length ∧ res.state.bytesLeft = b - res.n := by
  rcases eq_or_lt_of_le hb with h0 | hpos
  · subst h0
    refine ⟨_, LimitingReader.Read_of_zero R _ p rfl, ?_⟩
    simp
  · rw [LimitingReader.Read_of_pos R _ p hpos]
    obtain ⟨out, hout, h0, hle⟩ := hR s (p.take (min p.length b.toNat))
    have hle2 : out.n ≤ ((min p.length b.toNat : Nat) : Int) := by
      rw [List.length_take] at hle
      have : min (min p.length b.toNat) p.length = min p.length b.toNat := by omega
      rw [this] at hle
      exact hle
    refine ⟨_, by rw [hout]; rfl, h0, by dsimp only; omega, by dsimp only; omega, ?_⟩
    dsimp only
    exact wrapInt64_of_range _ (by omega) (by omega)

/-- Any finite sequence of `Read` calls on a decorator over a contract-obeying reader runs to
completion; the budget left is the initial budget minus the counts returned, it is
non-negative, and so is every count. -/
theorem LimitingReader.run_invariant {σ : Type} (R : Reader σ) (hR : R.Obeys) :
    ∀ (bufs : List (List Byte)) (s : σ) (b : Int), 0 ≤ b → b < 2 ^ 63 →
      ∃ st os, (limitReader R).run { reader := s, bytesLeft := b } bufs = some (st, os) ∧
        os.length = bufs.length ∧ st.bytesLeft = b - totalCount os ∧ 0 ≤ st.bytesLeft ∧
        ∀ o ∈ os, 0 ≤ o.n := by
  intro bufs
  induction bufs with
  | nil =>
    intro s b hb _
    exact ⟨_, [], rfl, rfl, by simp [totalCount], hb, by simp⟩
  | cons p ps ih =>
    intro s b hb hb63
    obtain ⟨res, hres, h0, hle, _, hleft⟩ := LimitingReader.Read_step_obeys R hR s b p hb hb63
    obtain ⟨st, os, hrun, hlen, hst, hst0, hall⟩ :=
      ih res.state.reader res.state.bytesLeft (by omega) (by omega)
    refine ⟨st, { buf := res.buf, n := res.n, err := res.err } :: os, ?_, ?_, ?_, hst0, ?_⟩
    · unfold Reader.run
      rw [limitReader_Read, hres]
      dsimp only
      rw [hrun]
    · simp [hlen]
    · rw [hst, hleft]
      simp only [totalCount, List.map_cons, List.sum_cons]
      omega
    · intro o ho
      rcases List.mem_cons.mp ho with rfl | ho
      · exact h0
      · exact hall o ho

/-! ## The claims about `LimitingReader` -/

/-- C1. For every byte string `s`, every budget `0 ≤ n` (a Go `int`) and every buffer of
positive length, calling `Read` on `LimitReader(strings.NewReader(s), n)` until the error is
non-nil ends, after at most `min(n, len(s)) + 1` calls, with `io.EOF`, and the bytes
delivered are exactly the first `min(n, len(s))` bytes of `s`. -/
theorem LimitReader_strings_delivers_first_bytes (s : List Byte) (n : Int) (buf : List Byte)
    (fuel : Nat) (hn : 0 ≤ n) (hn63 : n < 2 ^ 63) (hbuf : 0 < buf.length)
    (hfuel : min n.toNat s.length + 1 ≤ fuel) :
    readUntilErr (limitReader stringsReader) fuel
        (LimitReader (StringsReader.NewReader s) n) buf [] =
      some (s.take (min n.toNat s.length), Err.EOF) := by
  have hcast : ((n.toNat : Nat) : Int) = n := Int.toNat_of_nonneg hn
  have h := readUntilErr_limit_strings_aux s fuel 0 n.toNat buf [] hbuf (by omega)
    (Nat.zero_le _) (by simpa using hfuel)
  rw [hcast] at h
  simpa [LimitReader, StringsReader.NewReader] using h

/-- The scenario of `main`: budget 4 over `"some io.Reader stream to be read\n"`, pulled
through a 3-byte buffer, yields exactly `0x73 0x6F 0x6D 0x65` and then `io.EOF`. -/
theorem LimitReader_strings_delivers_first_bytes_witness :
    readUntilErr (limitReader stringsReader) 5
        (LimitReader (StringsReader.NewReader mainLiteral) 4) [0, 0, 0] [] =
      some ([0x73, 0x6F, 0x6D, 0x65], Err.EOF) :=
  LimitReader_strings_delivers_first_bytes mainLiteral 4 [0, 0, 0] 5
    (by decide) (by decide) (by decide) (by decide)

/-- C2. For every budget `0 ≤ n` (a Go `int`), every inner reader that obeys the stream
contract and every finite sequence of `Read` calls with arbitrary buffers on
`LimitReader(inner, n)`, every call returns and the sum of the counts returned by the
decorator does not exceed `n`. -/
theorem LimitReader_total_count_le_budget {σ : Type} (R : Reader σ) (hR : R.Obeys) (s : σ)
    (n : Int) (hn : 0 ≤ n) (hn63 : n < 2 ^ 63) (bufs : List (List Byte)) :
    ∃ st os, (limitReader R).run (LimitReader s n) bufs = some (st, os) ∧
      os.length = bufs.length ∧ totalCount os ≤ n := by
  obtain ⟨st, os, hrun, hlen, hst, hst0, _⟩ :=
    LimitingReader.run_invariant R hR bufs s n hn hn63
  exact ⟨st, os, hrun, hlen, by omega⟩

/-- Budget 4 over the literal of `main`, three pulls with buffers of lengths 3, 3 and 1. -/
theorem LimitReader_total_count_le_budget_witness :
    ∃ st os, (limitReader stringsReader).run
        (LimitReader (StringsReader.NewReader mainLiteral) 4) [[0, 0, 0], [0, 0, 0], [0]] =
          some (st, os) ∧
      os.length = [[0, 0, 0], [0, 0, 0], [(0 : Byte)]].length ∧ totalCount os ≤ 4 :=
  LimitReader_total_count_le_budget stringsReader stringsReader_obeys
    (StringsReader.NewReader mainLiteral) 4 (by decide) (by decide) [[0, 0, 0], [0, 0, 0], [0]]

/-- C3, as worded, fails: on `LimitReader(strings.NewReader("some io.Reader ..."), 4)` a
`Read` into a 4-byte buffer starts with `bytesLeft = 4 > 0`, leaves `bytesLeft = 0`, and
returns `(4, nil)`, not `io.EOF`; so "EOF iff bytesLeft reached zero or the inner reader
returned EOF" is false for this call. -/
theorem LimitingReader.Read_EOF_iff_budget_or_inner_counterexample :
    ∃ res inner,
      LimitingReader.Read stringsReader
        (LimitReader (StringsReader.NewReader mainLiteral) 4) [0, 0, 0, 0] = some res ∧
      stringsReader.Read (StringsReader.NewReader mainLiteral) [0, 0, 0, 0] = some inner ∧
      res.n = 4 ∧
      ¬ (res.err = Err.EOF ↔ (res.state.bytesLeft = 0 ∨ inner.err = Err.EOF)) := by
  refine ⟨_, _, rfl, rfl, rfl, ?_⟩
  decide

/-- C3, amended. For every `Read` on a `LimitingReader` whose `bytesLeft` is positive before
the call and whose inner call returns, the call returns `io.EOF` if and only if the inner
reader returned `io.EOF` on this call; and when `bytesLeft` is zero after the call, every
following `Read` returns `(0, io.EOF)`. -/
theorem LimitingReader.Read_EOF_iff_inner_EOF {σ : Type} (R : Reader σ)
    (r : LimitingReader σ) (p : List Byte) (inner : ReadResult σ) (hpos : 0 < r.bytesLeft)
    (hin : R.Read r.reader (p.take (min p.length r.bytesLeft.toNat)) = some inner) :
    ∃ res, LimitingReader.Read R r p = some res ∧
      (res.err = Err.EOF ↔ inner.err = Err.EOF) ∧
      (res.state.bytesLeft = 0 →
        ∀ p', LimitingReader.Read R res.state p' =
          some { state := res.state, buf := p', n := 0, err := Err.EOF }) := by
  refine ⟨_, by rw [LimitingReader.Read_of_pos R r p hpos, hin]; rfl, Iff.rfl, ?_⟩
  intro h0 p'
  exact LimitingReader.Read_of_zero R _ p' h0

/-- Budget 4 over the literal of `main`, a 4-byte buffer: the inner reader returns
`(4, nil)`, so does the decorator, and the budget is then used up. -/
theorem LimitingReader.Read_EOF_iff_inner_EOF_witness :
    ∃ res, LimitingReader.Read stringsReader
        (LimitReader (StringsReader.NewReader mainLiteral) 4) [0, 0, 0, 0] = some res ∧
      (res.err = Err.EOF ↔
        (ReadResult.mk (StringsReader.mk mainLiteral 4) [0x73, 0x6F, 0x6D, 0x65] 4 Err.nil).err
          = Err.EOF) ∧
      (res.state.bytesLeft = 0 →
        ∀ p', LimitingReader.Read stringsReader res.state p' =
          some { state := res.state, buf := p', n := 0, err := Err.EOF }) :=
  LimitingReader.Read_EOF_iff_inner_EOF stringsReader
    (LimitReader (StringsReader.NewReader mainLiteral) 4) [0, 0, 0, 0]
    (ReadResult.mk (StringsReader.mk mainLiteral 4) [0x73, 0x6F, 0x6D, 0x65] 4 Err.nil)
    (by decide) rfl

/-- C4. With `bytesLeft = 0`, `Read` returns `(0, io.EOF)` for every buffer, whatever the
inner reader and its state: the inner reader is not called (its state and the record of
calls made to it are unchanged), the buffer is unchanged and `bytesLeft` stays `0`; hence
every `Read` of any later sequence of calls behaves the same. -/
theorem LimitingReader.Read_zero_budget {σ : Type} (R : Reader σ) (s : σ)
    (calls : List (List Byte)) (p : List Byte) (later : List (List Byte)) :
    LimitingReader.Read (spy R) { reader := (s, calls), bytesLeft := 0 } p =
        some { state := { reader := (s, calls), bytesLeft := 0 }, buf := p, n := 0,
               err := Err.EOF } ∧
      (limitReader (spy R)).run (LimitReader (s, calls) 0) later =
        some (LimitReader (s, calls) 0,
              later.map (fun q => { buf := q, n := 0, err := Err.EOF })) := by
  refine ⟨LimitingReader.Read_of_zero _ _ _ rfl, ?_⟩
  induction later with
  | nil => rfl
  | cons q qs ih =>
    unfold Reader.run
    rw [limitReader_Read, LimitingReader.Read_of_zero _ _ _ rfl]
    dsimp only
    rw [ih]
    rfl

/-- C5. For every `Read` on a `LimitingReader` whose `bytesLeft` is positive, the pair
`(count, error)` returned is exactly the pair returned by the single call made to the inner
reader (and the call faults exactly when that inner call does): every inner error, `io.EOF`
included, is passed through unchanged and no error is added. -/
theorem LimitingReader.Read_returns_inner_pair {σ : Type} (R : Reader σ)
    (r : LimitingReader σ) (p : List Byte) (hpos : 0 < r.bytesLeft) :
    (LimitingReader.Read R r p).map (fun o => (o.n, o.err)) =
      (R.Read r.reader (p.take (min p.length r.bytesLeft.toNat))).map
        (fun o => (o.n, o.err)) := by
  rw [LimitingReader.Read_of_pos R r p hpos]
  cases R.Read r.reader (p.take (min p.length r.bytesLeft.toNat)) <;> rfl

/-- A `strings.Reader` over `"ab"` that is already used up, wrapped with two bytes of budget
left: the inner `(0, io.EOF)` is what the decorator returns. -/
theorem LimitingReader.Read_returns_inner_pair_witness :
    (LimitingReader.Read stringsReader
        { reader := { s := [0x61, 0x62], i := 2 }, bytesLeft := 2 } [0, 0, 0]).map
        (fun o => (o.n, o.err)) =
      some (0, Err.EOF) :=
  LimitingReader.Read_returns_inner_pair stringsReader
    { reader := { s := [0x61, 0x62], i := 2 }, bytesLeft := 2 } [0, 0, 0] (by decide)

/-! ## `LimitingReader`: the view handed to the inner reader -/

/-- The view of a positive budget has `min(len(p), bytesLeft)` elements. -/
theorem LimitingReader.ReadCap_of_pos {σ : Type} (R : CapReader σ) (r : LimitingReader σ)
    (p extra : List Byte) (h : 0 < r.bytesLeft) :
    LimitingReader.ReadCap R r p extra =
      (R.Read r.reader (p.take (min p.length r.bytesLeft.toNat))
          (p.drop (min p.length r.bytesLeft.toNat) ++ extra)).map (fun out =>
        { state := { reader := out.state, bytesLeft := wrapInt64 (r.bytesLeft - out.n) }
          buf := out.buf ++ out.beyond.take (p.length - min p.length r.bytesLeft.toNat)
          beyond := out.beyond.drop (p.length - min p.length r.bytesLeft.toNat)
          n := out.n
          err := out.err }) := by
  unfold LimitingReader.ReadCap
  rw [if_neg (by omega), LimitingReader.view_of_nonneg _ _ (le_of_lt h)]
  dsimp only
  have hl : (p.take (min p.length r.bytesLeft.toNat)).length = min p.length r.bytesLeft.toNat := by
    rw [List.length_take]; omega
  rw [hl]
  cases R.Read r.reader (p.take (min p.length r.bytesLeft.toNat))
      (p.drop (min p.length r.bytesLeft.toNat) ++ extra) <;> rfl

/-- Over a reader that keeps within the `len` of its slice, `Read` with the capacity taken
into account is `Read` on the `len` elements, and what lies beyond `p` is untouched. -/
theorem LimitingReader.ReadCap_capOf {σ : Type} (R : Reader σ) (r : LimitingReader σ)
    (p extra : List Byte) (hb : 0 ≤ r.bytesLeft) :
    LimitingReader.ReadCap (capOf R) r p extra =
      (LimitingReader.Read R r p).map (fun out =>
        { state := out.state, buf := out.buf, beyond := extra, n := out.n, err := out.err }) := by
  rcases eq_or_lt_of_le hb with h0 | hpos
  · rw [LimitingReader.Read_of_zero R r p h0.symm]
    unfold LimitingReader.ReadCap
    rw [if_pos h0.symm]
    rfl
  · rw [LimitingReader.ReadCap_of_pos _ _ _ _ hpos, LimitingReader.Read_of_pos _ _ _ hpos]
    show (match R.Read r.reader (p.take (min p.length r.bytesLeft.toNat)) with
          | none => none
          | some out => _).map _ = _
    cases R.Read r.reader (p.take (min p.length r.bytesLeft.toNat)) with
    | none => rfl
    | some out =>
      have hd : (p.drop (min p.length r.bytesLeft.toNat)).length =
          p.length - min p.length r.bytesLeft.toNat := List.length_drop _ _
      simp only [Option.map_some']
      rw [← hd, List.take_left, List.drop_left]

/-- C6, as worded, fails: the view `p[0:2]` of a 5-byte buffer `p` keeps the capacity of `p`,
and an inner reader that writes up to the capacity of the slice it is given leaves `p` as
`[255 255 255 255 255]`; the three bytes of `p` beyond the view have changed. -/
theorem LimitingReader.ReadCap_tail_unchanged_counterexample :
    ∃ res, LimitingReader.ReadCap scribbler (LimitReader () 2) [0, 0, 0, 0, 0] [] = some res ∧
      res.n = 2 ∧ res.buf = [255, 255, 255, 255, 255] ∧
      res.buf.drop 2 ≠ [0, 0, 0, 0, (0 : Byte)].drop 2 := by
  refine ⟨_, rfl, rfl, rfl, ?_⟩
  decide

/-- C6, amended. For every `Read` with buffer `p` on a `LimitingReader` whose `bytesLeft` is
positive: the slice `v` handed to the inner reader has, as its `len` elements, the leading
part of `p` of length exactly `min(len(p), bytesLeft)` (and, up to its capacity, the rest of
`p` and what lies beyond `p`); when the inner call returns, the decorator's call returns,
the record of calls made to the inner reader has grown by exactly the one entry `v`, and the
leading part of `p` is what the inner reader left in `v`; and whenever the inner reader has
written only within the `len` of `v`, the bytes of `p` beyond `v`, and those beyond `p`, are
unchanged. -/
theorem LimitingReader.ReadCap_truncates_view {σ : Type} (R : CapReader σ) (s : σ)
    (calls : List (List Byte)) (b : Int) (p extra : List Byte) (hpos : 0 < b) :
    (((p.take (min p.length b.toNat)).length : Nat) : Int) = min (p.length : Int) b ∧
      ∀ inner, R.Read s (p.take (min p.length b.toNat))
          (p.drop (min p.length b.toNat) ++ extra) = some inner →
        ∃ res, LimitingReader.ReadCap (spyCap R) { reader := (s, calls), bytesLeft := b }
            p extra = some res ∧
          res.state.reader.2 = calls ++ [p.take (min p.length b.toNat)] ∧
          res.buf.take (min p.length b.toNat) = inner.buf ∧
          res.buf.length = p.length ∧
          res.n = inner.n ∧ res.err = inner.err ∧
          (inner.beyond = p.drop (min p.length b.toNat) ++ extra →
            res.buf.drop (min p.length b.toNat) = p.drop (min p.length b.toNat) ∧
            res.beyond = extra) := by
  have hl : (p.take (min p.length b.toNat)).length = min p.length b.toNat := by
    rw [List.length_take]; omega
  refine ⟨by rw [hl]; omega, ?_⟩
  intro inner hin
  obtain ⟨hil, hbl⟩ := R.len_ok _ _ _ _ hin
  rw [hl] at hil
  rw [List.length_append, List.length_drop] at hbl
  have hspy : (spyCap R).Read (s, calls) (p.take (min p.length b.toNat))
      (p.drop (min p.length b.toNat) ++ extra) =
      some { state := (inner.state, calls ++ [p.take (min p.length b.toNat)])
             buf := inner.buf, beyond := inner.beyond, n := inner.n, err := inner.err } := by
    show (match R.Read s (p.take (min p.length b.toNat))
            (p.drop (min p.length b.toNat) ++ extra) with
          | none => none
          | some out => _) = _
    rw [hin]
  have hres : LimitingReader.ReadCap (spyCap R) { reader := (s, calls), bytesLeft := b }
      p extra =
      some { state := { reader := (inner.state, calls ++ [p.take (min p.length b.toNat)])
                        bytesLeft := wrapInt64 (b - inner.n) }
             buf := inner.buf ++ inner.beyond.take (p.length - min p.length b.toNat)
             beyond := inner.beyond.drop (p.length - min p.length b.toNat)
             n := inner.n, err := inner.err } := by
    rw [LimitingReader.ReadCap_of_pos (spyCap R) _ p extra hpos]
    dsimp only
    rw [hspy]
    rfl
  refine ⟨_, hres, rfl, ?_, ?_, rfl, rfl, ?_⟩
  · dsimp only
    rw [List.take_append_of_le_length (by omega), ← hil, List.take_length]
  · simp only [List.length_append, List.length_take, hil, hbl]
    omega
  · intro hb
    have hd : (p.drop (min p.length b.toNat)).length = p.length - min p.length b.toNat :=
      List.length_drop _ _
    dsimp only
    rw [hb, ← hd, List.take_left, List.drop_left]
    refine ⟨?_, rfl⟩
    rw [List.drop_append_of_le_length (by omega), ← hil, List.drop_length, List.nil_append]

/-- Budget 2 over the literal of `main`, a 5-byte buffer with 3 more bytes of capacity: the
inner `strings.Reader` is called once with the two leading bytes of the buffer and, as it
keeps within them, the other three bytes and the capacity beyond keep their values. -/
theorem LimitingReader.ReadCap_truncates_view_witness :
    (((2 : Nat) : Int) = min ((5 : Nat) : Int) 2) ∧
      ∀ inner, (capOf stringsReader).Read (StringsReader.NewReader mainLiteral) [7, 7]
          ([7, 7, 7] ++ [9, 9, 9]) = some inner →
        ∃ res, LimitingReader.ReadCap (spyCap (capOf stringsReader))
            { reader := (StringsReader.NewReader mainLiteral, []), bytesLeft := 2 }
            [7, 7, 7, 7, 7] [9, 9, 9] = some res ∧
          res.state.reader.2 = [[7, 7]] ∧
          res.buf.take 2 = inner.buf ∧
          res.buf.length = 5 ∧
          res.n = inner.n ∧ res.err = inner.err ∧
          (inner.beyond = [7, 7, 7] ++ [9, 9, 9] →
            res.buf.drop 2 = [7, 7, 7] ∧ res.beyond = [9, 9, 9]) :=
  LimitingReader.ReadCap_truncates_view (capOf stringsReader)
    (StringsReader.NewReader mainLiteral) [] 2 [7, 7, 7, 7, 7] [9, 9, 9] (by decide)

/-! ## `MyCheck` and `SliceError` -/

/-- The loop of `MyCheck` counts the spaces and records whether a digit occurs. -/
theorem MyCheck.scan_foldl (l : List Char) : ∀ st : Nat × Bool,
    l.foldl MyCheck.scan st =
      (st.1 + l.count ' ', st.2 || l.any (fun c => decide ('0' ≤ c ∧ c ≤ '9'))) := by
  induction l with
  | nil => intro st; simp
  | cons c l ih =>
    intro st
    rw [List.foldl_cons, ih]
    unfold MyCheck.scan
    by_cases hsp : c = ' '
    · subst hsp
      have hnd : decide ('0' ≤ ' ' ∧ ' ' ≤ '9') = false := by decide
      simp only [if_true, List.count_cons_self, List.any_cons, hnd, Bool.false_or]
      congr 1
      omega
    · have hsp2 : (c == ' ') = false := by simpa using hsp
      by_cases hd : '0' ≤ c ∧ c ≤ '9'
      · have hdt : decide ('0' ≤ c ∧ c ≤ '9') = true := decide_eq_true hd
        simp only [if_neg hsp, if_pos hd, List.any_cons, hdt, Bool.true_or, Bool.or_true,
          List.count_cons, hsp2]
        simp
      · have hdf : decide ('0' ≤ c ∧ c ≤ '9') = false := decide_eq_false hd
        simp only [if_neg hsp, if_neg hd, List.any_cons, hdf, Bool.false_or,
          List.count_cons, hsp2]
        simp

/-- The function `MyCheck` in closed form: `nil` when no rule is violated, otherwise the
`SliceError` made of one `errors.New` per violated rule, in rule order. -/
theorem MyCheck_eq (input : String) :
    MyCheck input =
      if MyCheck.violations input = [] then none
      else some ((MyCheck.violations input).map errors.New) := by
  unfold MyCheck MyCheck.violations
  rw [MyCheck.scan_foldl]
  have hlen : input.length = input.data.length := rfl
  have hany : (input.data.any (fun c => decide ('0' ≤ c ∧ c ≤ '9')) = true) ↔
      ∃ c ∈ input.data, '0' ≤ c ∧ c ≤ '9' := by
    simp [List.any_eq_true]
  rw [← hlen]
  by_cases h1 : 20 ≤ input.length <;>
  by_cases h2 : (∃ c ∈ input.data, '0' ≤ c ∧ c ≤ '9') <;>
  by_cases h3 : input.data.count ' ' < 2
  all_goals
    first
    | (have h2t := hany.mpr h2
       simp [h2t, h1, h2, h3])
    | (have h2f : input.data.any (fun c => decide ('0' ≤ c ∧ c ≤ '9')) = false := by
        rw [← Bool.not_eq_true]; exact fun h => h2 (hany.mp h)
       simp [h2f, h1, h2, h3])

/-- The loop of `SliceError.Error` collects the messages in slice order. -/
theorem SliceError.collect_foldl (es : List GoError) : ∀ out : List String,
    es.foldl (fun out err => out ++ [err.Error]) out = out ++ es.map (fun e => e.Error) := by
  induction es with
  | nil => intro out; simp
  | cons e es ih => intro out; rw [List.foldl_cons, ih]; simp

/-- The writing loop of `strings.Join` appends, to what is already written, each remaining
element preceded by the separator. -/
theorem strings.Join_foldl (sep : String) (rest : List String) : ∀ b m : String,
    rest.foldl (fun b s => (b ++ sep) ++ s) (b ++ m) =
      b ++ joinedWith sep (m :: rest) := by
  induction rest with
  | nil => intro b m; rfl
  | cons s rest ih =>
    intro b m
    rw [List.foldl_cons]
    have h : (b ++ m ++ sep) ++ s = (b ++ (m ++ sep)) ++ s := by rw [String.append_assoc b m sep]
    rw [h, ih (b ++ (m ++ sep)) s]
    show _ = b ++ ((m ++ sep) ++ joinedWith sep (s :: rest))
    rw [String.append_assoc]

theorem strings.Join_eq_joinedWith (sep : String) (elems : List String) :
    strings.Join elems sep = joinedWith sep elems := by
  match elems with
  | [] => rfl
  | [e] => rfl
  | e :: s :: rest =>
    have h := strings.Join_foldl sep (s :: rest) "" e
    rw [String.empty_append, String.empty_append] at h
    exact h

/-- C7. For every input, the reasons carried by the error `MyCheck` returns (none for `nil`)
are exactly the reasons, in the fixed order "Line is too long", "found numbers",
"no 2 spaces", of the rules the input violates (20 runes or more; some character among
`'0'..'9'`; fewer than 2 spaces), each rule being judged on the whole input whatever the
others gave; and an input violating all three is described by
"Line is too long;found numbers;no 2 spaces". -/
theorem MyCheck_reasons_eq_violations (input : String) :
    MyCheck.reasons (MyCheck input) = MyCheck.violations input ∧
      (20 ≤ input.length → (∃ c ∈ input.data, '0' ≤ c ∧ c ≤ '9') →
        input.data.count ' ' < 2 →
        (MyCheck input).map SliceError.Error =
          some "Line is too long;found numbers;no 2 spaces") := by
  constructor
  · rw [MyCheck_eq]
    split
    · rename_i h; rw [h]; rfl
    · show ((MyCheck.violations input).map errors.New).map (fun e => e.Error) = _
      rw [List.map_map]
      exact List.map_id _
  · intro h1 h2 h3
    have hv : MyCheck.violations input =
        ["Line is too long", "found numbers", "no 2 spaces"] := by
      unfold MyCheck.violations
      rw [if_pos h1, if_pos h2, if_pos h3]
      rfl
    rw [MyCheck_eq, hv]
    decide

/-- Twenty digits and no space violate all three rules. -/
theorem MyCheck_reasons_eq_violations_witness :
    (MyCheck "12345678901234567890").map SliceError.Error =
      some "Line is too long;found numbers;no 2 spaces" :=
  (MyCheck_reasons_eq_violations "12345678901234567890").2 (by decide) (by decide) (by decide)

/-- C8. For every input, `MyCheck` returns `nil` if and only if the input satisfies every
rule (fewer than 20 runes, no character among `'0'..'9'`, at least 2 spaces); and every
non-nil error it returns is a `SliceError` with at least one element. -/
theorem MyCheck_nil_iff_all_rules_hold (input : String) :
    (MyCheck input = none ↔
      (input.length < 20 ∧ (¬ ∃ c ∈ input.data, '0' ≤ c ∧ c ≤ '9') ∧
        2 ≤ input.data.count ' ')) ∧
      ∀ err : SliceError, MyCheck input = some err → 1 ≤ err.length := by
  constructor
  · rw [MyCheck_eq]
    unfold MyCheck.violations
    by_cases h1 : 20 ≤ input.length <;>
    by_cases h2 : (∃ c ∈ input.data, '0' ≤ c ∧ c ≤ '9') <;>
    by_cases h3 : input.data.count ' ' < 2
    all_goals simp [h1, h2, h3]
    all_goals omega
  · intro err herr
    rw [MyCheck_eq] at herr
    split at herr
    · cases herr
    · rename_i hne
      cases herr
      rw [List.length_map]
      exact List.length_pos.mpr hne

/-- C9. For every `SliceError`, `Error()` is the messages of its elements, in slice order,
joined with the one-character separator ";" (the text `m1;m2;...;mk`, also as computed by
the library join `String.intercalate`): the empty string for the empty `SliceError`, and the
message alone, without separator, for a single element. -/
theorem SliceError_Error_eq_joined (es : SliceError) :
    SliceError.Error es = joinedWith ";" (es.map (fun e => e.Error)) ∧
      SliceError.Error es = ";".intercalate (es.map (fun e => e.Error)) ∧
      SliceError.Error [] = "" ∧
      (∀ e : GoError, SliceError.Error [e] = e.Error) ∧
      (";" : String).length = 1 := by
  have h1 : SliceError.Error es = joinedWith ";" (es.map (fun e => e.Error)) := by
    unfold SliceError.Error
    rw [SliceError.collect_foldl, List.nil_append, strings.Join_eq_joinedWith]
  have hgo : ∀ (l : List String) (acc m : String),
      String.intercalate.go (acc ++ m) ";" l = acc ++ joinedWith ";" (m :: l) := by
    intro l
    induction l with
    | nil => intro acc m; rfl
    | cons s l ih =>
      intro acc m
      show String.intercalate.go (acc ++ m ++ ";" ++ s) ";" l = _
      have h : acc ++ m ++ ";" ++ s = (acc ++ (m ++ ";")) ++ s := by
        rw [String.append_assoc acc m ";"]
      rw [h, ih]
      show _ = acc ++ ((m ++ ";") ++ joinedWith ";" (s :: l))
      rw [String.append_assoc]
  refine ⟨h1, ?_, rfl, fun e => rfl, rfl⟩
  rw [h1]
  cases hm : es.map (fun e => e.Error) with
  | nil => rfl
  | cons m l =>
    have h := hgo l "" m
    rw [String.empty_append, String.empty_append] at h
    exact h.symm

/-! ## The generators -/

/-- Two readers whose states are related by `Sim`, such that related states answer every
`Read` with the same buffer, count and error and stay related, give the same outcomes on
every sequence of `Read` calls. -/
theorem Reader.run_eq_of_sim {σ τ : Type} (A : Reader σ) (B : Reader τ) (Sim : σ → τ → Prop)
    (hstep : ∀ a b p, Sim a b → ∃ x y, A.Read a p = some x ∧ B.Read b p = some y ∧
      x.buf = y.buf ∧ x.n = y.n ∧ x.err = y.err ∧ Sim x.state y.state) :
    ∀ (bufs : List (List Byte)) (a : σ) (b : τ), Sim a b →
      ∃ sa sb os, A.run a bufs = some (sa, os) ∧ B.run b bufs = some (sb, os) ∧
        os.length = bufs.length ∧ Sim sa sb := by
  intro bufs
  induction bufs with
  | nil => intro a b h; exact ⟨a, b, [], rfl, rfl, rfl, h⟩
  | cons p ps ih =>
    intro a b h
    obtain ⟨x, y, hx, hy, hbuf, hn, herr, hsim⟩ := hstep a b p h
    obtain ⟨sa, sb, os, hra, hrb, hlen, hs⟩ := ih x.state y.state hsim
    refine ⟨sa, sb, { buf := x.buf, n := x.n, err := x.err } :: os, ?_, ?_, ?_, hs⟩
    · unfold Reader.run
      rw [hx]; dsimp only; rw [hra]
    · unfold Reader.run
      rw [hy]; dsimp only; rw [hrb, hbuf, hn, herr]
    · simp [hlen]

/-- The loop of `example-randbyte` over two sources whose states are related and draw alike:
same bytes, related states. -/
theorem ExampleRandbyte.generator.step_foldl_sim {σ τ : Type} (S : Source σ) (T : Source τ)
    (Rel : σ → τ → Prop)
    (hdraw : ∀ a b, Rel a b → (S.Int63 a).1 = (T.Int63 b).1 ∧ Rel (S.Int63 a).2 (T.Int63 b).2)
    (l : List Nat) : ∀ (a : σ) (b : τ) (bytes : List Byte), Rel a b →
      (l.foldl (ExampleRandbyte.generator.step S) (a, bytes)).2 =
          (l.foldl (ExampleRandbyte.generator.step T) (b, bytes)).2 ∧
        Rel (l.foldl (ExampleRandbyte.generator.step S) (a, bytes)).1
          (l.foldl (ExampleRandbyte.generator.step T) (b, bytes)).1 := by
  induction l with
  | nil => intro a b bytes h; exact ⟨rfl, h⟩
  | cons i l ih =>
    intro a b bytes h
    obtain ⟨hv, hr⟩ := hdraw a b h
    rw [List.foldl_cons, List.foldl_cons]
    have hs : ExampleRandbyte.generator.step T (b, bytes) i =
        ((T.Int63 b).2, bytes.set i (byteOf (S.Int63 a).1)) := by
      unfold ExampleRandbyte.generator.step
      rw [hv]
    rw [hs]
    exact ih (S.Int63 a).2 (T.Int63 b).2 _ hr

/-- The loop of `task-randbyte` over two sources whose states are related and draw alike:
same bytes, related states. -/
theorem TaskRandbyte.generator.loop_sim {σ τ : Type} (S : Source σ) (T : Source τ)
    (Rel : σ → τ → Prop)
    (hdraw : ∀ a b, Rel a b → (S.Int63 a).1 = (T.Int63 b).1 ∧ Rel (S.Int63 a).2 (T.Int63 b).2)
    (fuel : Nat) : ∀ (i : Nat) (a : σ) (b : τ) (bytes : List Byte), Rel a b →
      (TaskRandbyte.generator.loop S fuel i a bytes).2 =
          (TaskRandbyte.generator.loop T fuel i b bytes).2 ∧
        Rel (TaskRandbyte.generator.loop S fuel i a bytes).1
          (TaskRandbyte.generator.loop T fuel i b bytes).1 := by
  induction fuel with
  | zero => intro i a b bytes h; exact ⟨rfl, h⟩
  | succ fuel ih =>
    intro i a b bytes h
    obtain ⟨hv, hr⟩ := hdraw a b h
    unfold TaskRandbyte.generator.loop
    by_cases hi : i + 8 < bytes.length
    · rw [if_pos hi, if_pos hi]
      dsimp only
      rw [← hv]
      exact ih (i + 8) (S.Int63 a).2 (T.Int63 b).2 _ hr
    · rw [if_neg hi, if_neg hi]
      exact ⟨rfl, h⟩

/-- C10. Let the random source be any deterministic function of the seed, possibly in two
representations `S` and `T` whose states, related by `Rel`, are related after seeding with
the same seed and draw the same values (for one source: `T = S` and `Rel` equality).  Then
for every seed and every sequence of buffers, the two generators made by `New(seed)` answer
every `Read` of the sequence, and return identical counts, errors and buffer contents, in
`example-randbyte` as well as in `task-randbyte`. -/
theorem generators_same_seed_same_output {σ τ : Type} (S : Source σ) (T : Source τ)
    (Rel : σ → τ → Prop)
    (hseed : ∀ seed, Rel (S.NewSource seed) (T.NewSource seed))
    (hdraw : ∀ a b, Rel a b → (S.Int63 a).1 = (T.Int63 b).1 ∧ Rel (S.Int63 a).2 (T.Int63 b).2)
    (seed : Int) (bufs : List (List Byte)) :
    (∃ os, os.length = bufs.length ∧
      ((ExampleRandbyte.reader S).run (ExampleRandbyte.New S seed) bufs).map Prod.snd = some os ∧
      ((ExampleRandbyte.reader T).run (ExampleRandbyte.New T seed) bufs).map Prod.snd = some os) ∧
    (∃ os, os.length = bufs.length ∧
      ((TaskRandbyte.reader S).run (TaskRandbyte.New S seed) bufs).map Prod.snd = some os ∧
      ((TaskRandbyte.reader T).run (TaskRandbyte.New T seed) bufs).map Prod.snd = some os) := by
  constructor
  · obtain ⟨sa, sb, os, ha, hb, hlen, _⟩ :=
      Reader.run_eq_of_sim (ExampleRandbyte.reader S) (ExampleRandbyte.reader T)
        (fun g h => Rel g.rnd h.rnd)
        (by
          intro g h p hrel
          obtain ⟨hb, hr⟩ := ExampleRandbyte.generator.step_foldl_sim S T Rel hdraw
            (List.range p.length) g.rnd h.rnd p hrel
          exact ⟨_, _, rfl, rfl, hb, rfl, rfl, hr⟩)
        bufs (ExampleRandbyte.New S seed) (ExampleRandbyte.New T seed) (hseed seed)
    exact ⟨os, hlen, by rw [ha]; rfl, by rw [hb]; rfl⟩
  · obtain ⟨sa, sb, os, ha, hb, hlen, _⟩ :=
      Reader.run_eq_of_sim (TaskRandbyte.reader S) (TaskRandbyte.reader T)
        (fun g h => Rel g.rnd h.rnd)
        (by
          intro g h p hrel
          obtain ⟨hb, hr⟩ := TaskRandbyte.generator.loop_sim S T Rel hdraw
            p.length 0 g.rnd h.rnd p hrel
          exact ⟨_, _, rfl, rfl, hb, rfl, rfl, hr⟩)
        bufs (TaskRandbyte.New S seed) (TaskRandbyte.New T seed) (hseed seed)
    exact ⟨os, hlen, by rw [ha]; rfl, by rw [hb]; rfl⟩

/-- Seed 42 with a linear congruential source, once with the plain state and once with a
state that also counts the draws: reads of 3 and of 17 bytes agree in both variants. -/
theorem generators_same_seed_same_output_witness :
    (∃ os, os.length = 2 ∧
      ((ExampleRandbyte.reader lcgSource).run (ExampleRandbyte.New lcgSource 42)
        [[0, 0, 0], List.replicate 17 1]).map Prod.snd = some os ∧
      ((ExampleRandbyte.reader lcgCountingSource).run (ExampleRandbyte.New lcgCountingSource 42)
        [[0, 0, 0], List.replicate 17 1]).map Prod.snd = some os) ∧
    (∃ os, os.length = 2 ∧
      ((TaskRandbyte.reader lcgSource).run (TaskRandbyte.New lcgSource 42)
        [[0, 0, 0], List.replicate 17 1]).map Prod.snd = some os ∧
      ((TaskRandbyte.reader lcgCountingSource).run (TaskRandbyte.New lcgCountingSource 42)
        [[0, 0, 0], List.replicate 17 1]).map Prod.snd = some os) :=
  generators_same_seed_same_output lcgSource lcgCountingSource (fun a b => a = b.1)
    (fun _ => rfl)
    (fun a b h => by subst h; exact ⟨rfl, rfl⟩)
    42 [[0, 0, 0], List.replicate 17 1]

/-- C11. For every generator state and every buffer, the empty one included,
`generator.Read` returns, with `n = len(bytes)` and a `nil` error (never a smaller count,
never `io.EOF`, never a failure), in `example-randbyte` and in `task-randbyte`. -/
theorem generator_Read_returns_len_nil {σ : Type} (S : Source σ)
    (g : ExampleRandbyte.generator σ) (h : TaskRandbyte.generator σ) (bytes : List Byte) :
    (∃ out, ExampleRandbyte.generator.Read S g bytes = some out ∧
      out.n = bytes.length ∧ out.err = Err.nil ∧ out.buf.length = bytes.length) ∧
    (∃ out, TaskRandbyte.generator.Read S h bytes = some out ∧
      out.n = bytes.length ∧ out.err = Err.nil ∧ out.buf.length = bytes.length) := by
  constructor
  · exact ⟨_, rfl, rfl, rfl, (ExampleRandbyte.reader S).len_ok g bytes _ rfl⟩
  · exact ⟨_, rfl, rfl, rfl, (TaskRandbyte.reader S).len_ok h bytes _ rfl⟩

/-- Storing `f 0, ..., f (n-1)` at the indices `i, ..., i+n-1` of a list that has them. -/
theorem foldl_set_range (f : Nat → Byte) (n : Nat) : ∀ (bytes : List Byte) (i : Nat),
    i + n ≤ bytes.length →
    (List.range n).foldl (fun b j => b.set (i + j) (f j)) bytes =
      bytes.take i ++ (List.range n).map f ++ bytes.drop (i + n) := by
  induction n with
  | zero => intro bytes i _; simp
  | succ n ih =>
    intro bytes i h
    rw [List.range_succ, List.foldl_append, ih bytes i (by omega)]
    have hlen : (bytes.take i ++ (List.range n).map f).length = i + n := by
      simp only [List.length_append, List.length_take, List.length_map, List.length_range]
      omega
    rw [List.drop_eq_getElem_cons (by omega : i + n < bytes.length)]
    simp only [List.foldl_cons, List.foldl_nil]
    rw [List.set_append_right _ _ (by rw [hlen])]
    have h0 : i + n - (bytes.take i ++ (List.range n).map f).length = 0 := by rw [hlen]; omega
    rw [h0, List.set_cons_zero]
    simp [List.append_assoc, Nat.add_assoc]

/-- `PutUint64` on a window that lies inside the slice replaces exactly that window by the
little-endian encoding. -/
theorem putUint64_eq (bytes : List Byte) (i v : Nat) (h : i + 8 ≤ bytes.length) :
    putUint64 bytes i v = bytes.take i ++ littleEndian64 v ++ bytes.drop (i + 8) :=
  foldl_set_range (fun j => v / 256 ^ j % 256) 8 bytes i h

theorem littleEndian64_length (v : Nat) : (littleEndian64 v).length = 8 := by
  simp [littleEndian64]

theorem Source.draws_length {σ : Type} (S : Source σ) : ∀ (m : Nat) (rnd : σ),
    (S.draws m rnd).1.length = m := by
  intro m
  induction m with
  | zero => intro rnd; rfl
  | succ m ih => intro rnd; simp [Source.draws, ih]

theorem Source.draws_encoded_length {σ : Type} (S : Source σ) : ∀ (m : Nat) (rnd : σ),
    ((S.draws m rnd).1.flatMap (fun v => littleEndian64 (uint64Of v))).length = 8 * m := by
  intro m
  induction m with
  | zero => intro rnd; rfl
  | succ m ih =>
    intro rnd
    simp only [Source.draws, List.flatMap_cons, List.length_append, littleEndian64_length, ih]
    omega

/-- The loop of `task-randbyte` from index `i`: it runs `(len(bytes) - i - 1) / 8` times, each
time storing the encoding of the next draw in the next 8-byte group, and touches nothing
else. -/
theorem TaskRandbyte_loop_eq {σ : Type} (S : Source σ) :
    ∀ (fuel i : Nat) (rnd : σ) (bytes : List Byte),
      (bytes.length - i - 1) / 8 ≤ fuel → i ≤ bytes.length →
      TaskRandbyte.generator.loop S fuel i rnd bytes =
        ((S.draws ((bytes.length - i - 1) / 8) rnd).2,
         bytes.take i ++
           (S.draws ((bytes.length - i - 1) / 8) rnd).1.flatMap
             (fun v => littleEndian64 (uint64Of v)) ++
           bytes.drop (i + 8 * ((bytes.length - i - 1) / 8))) := by
  intro fuel
  induction fuel with
  | zero =>
    intro i rnd bytes hf _
    have hm : (bytes.length - i - 1) / 8 = 0 := by omega
    rw [hm]
    simp [TaskRandbyte.generator.loop, Source.draws]
  | succ fuel ih =>
    intro i rnd bytes hf hi
    unfold TaskRandbyte.generator.loop
    by_cases hlt : i + 8 < bytes.length
    · rw [if_pos hlt]
      dsimp only
      have hput := putUint64_eq bytes i (uint64Of (S.Int63 rnd).1) (by omega)
      have hlenAB : (bytes.take i ++ littleEndian64 (uint64Of (S.Int63 rnd).1)).length = i + 8 := by
        rw [List.length_append, List.length_take, littleEndian64_length]; omega
      have hlen' : (putUint64 bytes i (uint64Of (S.Int63 rnd).1)).length = bytes.length := by
        rw [hput]
        simp only [List.length_append, List.length_take, List.length_drop, littleEndian64_length]
        omega
      obtain ⟨m', hm'⟩ : ∃ m', (bytes.length - i - 1) / 8 = m' + 1 := ⟨(bytes.length - i - 1) / 8 - 1, by omega⟩
      have hm2 : (bytes.length - (i + 8) - 1) / 8 = m' := by omega
      rw [ih (i + 8) _ _ (by rw [hlen']; omega) (by rw [hlen']; omega), hlen', hm2, hm']
      have htake : (putUint64 bytes i (uint64Of (S.Int63 rnd).1)).take (i + 8) =
          bytes.take i ++ littleEndian64 (uint64Of (S.Int63 rnd).1) := by
        rw [hput, List.take_left' hlenAB]
      have hdrop : (putUint64 bytes i (uint64Of (S.Int63 rnd).1)).drop (i + 8 + 8 * m') =
          bytes.drop (i + 8 * (m' + 1)) := by
        rw [hput, ← hlenAB, List.drop_append, List.drop_drop]
        congr 1
        omega
      rw [htake, hdrop]
      simp only [Source.draws, List.flatMap_cons, List.append_assoc]
    · rw [if_neg hlt]
      have hm : (bytes.length - i - 1) / 8 = 0 := by omega
      rw [hm]
      simp [Source.draws]

/-- C12. In `task-randbyte`, for every buffer of length `L ≥ 1`, with
`m = ceil(L/8) - 1`: `Read` returns `n = L` and `nil`; the buffer afterwards is the
little-endian encodings of the first `m` successive `Int63` draws, 8 bytes each (`8*m` bytes
in all), followed by the unchanged trailing `L - 8*m` bytes of the buffer, a number between 1
and 8; the source has advanced by exactly `m` draws; and a buffer of length at most 8 is
left as it was, with no value drawn. -/
theorem TaskRandbyte_Read_leaves_trailing_bytes {σ : Type} (S : Source σ)
    (g : TaskRandbyte.generator σ) (bytes : List Byte) (hL : 1 ≤ bytes.length) :
    ∃ out, TaskRandbyte.generator.Read S g bytes = some out ∧
      out.n = bytes.length ∧ out.err = Err.nil ∧
      out.buf =
        (S.draws ((bytes.length + 7) / 8 - 1) g.rnd).1.flatMap
            (fun v => littleEndian64 (uint64Of v)) ++
          bytes.drop (8 * ((bytes.length + 7) / 8 - 1)) ∧
      ((S.draws ((bytes.length + 7) / 8 - 1) g.rnd).1.flatMap
          (fun v => littleEndian64 (uint64Of v))).length = 8 * ((bytes.length + 7) / 8 - 1) ∧
      out.state.rnd = (S.draws ((bytes.length + 7) / 8 - 1) g.rnd).2 ∧
      1 ≤ bytes.length - 8 * ((bytes.length + 7) / 8 - 1) ∧
      bytes.length - 8 * ((bytes.length + 7) / 8 - 1) ≤ 8 ∧
      (bytes.length ≤ 8 → out.buf = bytes ∧ out.state = g) := by
  have hm : (bytes.length - 0 - 1) / 8 = (bytes.length + 7) / 8 - 1 := by omega
  have hloop := TaskRandbyte_loop_eq S bytes.length 0 g.rnd bytes (by omega)
    (Nat.zero_le _)
  rw [hm] at hloop
  simp only [List.take_zero, List.nil_append, Nat.zero_add] at hloop
  refine ⟨_, rfl, rfl, rfl, ?_, Source.draws_encoded_length S _ _, ?_, by omega, by omega, ?_⟩
  · show (TaskRandbyte.generator.loop S bytes.length 0 g.rnd bytes).2 = _
    rw [hloop]
  · show (TaskRandbyte.generator.loop S bytes.length 0 g.rnd bytes).1 = _
    rw [hloop]
  · intro h8
    have h0 : (bytes.length + 7) / 8 - 1 = 0 := by omega
    constructor
    · show (TaskRandbyte.generator.loop S bytes.length 0 g.rnd bytes).2 = _
      rw [hloop, h0]
      simp [Source.draws]
    · show TaskRandbyte.generator.mk (TaskRandbyte.generator.loop S bytes.length 0 g.rnd bytes).1
        = g
      rw [hloop, h0]
      rfl

/-- A 17-byte buffer and the linear congruential source seeded with 42: two groups of 8
bytes are written, the 17th byte keeps its value. -/
theorem TaskRandbyte_Read_leaves_trailing_bytes_witness :
    ∃ out, TaskRandbyte.generator.Read lcgSource (TaskRandbyte.New lcgSource 42)
        (List.replicate 17 1) = some out ∧
      out.n = 17 ∧ out.err = Err.nil ∧
      out.buf =
        (lcgSource.draws 2 (lcgSource.NewSource 42)).1.flatMap
            (fun v => littleEndian64 (uint64Of v)) ++ [1] ∧
      ((lcgSource.draws 2 (lcgSource.NewSource 42)).1.flatMap
          (fun v => littleEndian64 (uint64Of v))).length = 16 ∧
      out.state.rnd = (lcgSource.draws 2 (lcgSource.NewSource 42)).2 ∧
      1 ≤ 17 - 16 ∧ 17 - 16 ≤ 8 ∧
      ((List.replicate 17 (1 : Byte)).length ≤ 8 →
        out.buf = List.replicate 17 1 ∧ out.state = TaskRandbyte.New lcgSource 42) :=
  TaskRandbyte_Read_leaves_trailing_bytes lcgSource (TaskRandbyte.New lcgSource 42)
    (List.replicate 17 1) (by decide)

/-! ## `RemoveDuplicates` -/

/-- C13 fails on the code. On `[a b a b]` the function returns `[b b]`: `b` occurs twice and
`a`, a string of the input, is gone.  (On the slice of `main` it does return
`[bird dog parrot cat]`.) -/
theorem RemoveDuplicates_leaves_duplicate :
    RemoveDuplicates ["a", "b", "a", "b"] = ["b", "b"] ∧
      ¬ (RemoveDuplicates ["a", "b", "a", "b"]).Nodup ∧
      "a" ∉ RemoveDuplicates ["a", "b", "a", "b"] ∧
      RemoveDuplicates ["cat", "dog", "bird", "dog", "parrot", "cat"] =
        ["bird", "dog", "parrot", "cat"] := by
  decide

/-! ## `Add` -/

/-- The loop of `Add` after `k` iterations: the first `k` sums are stored, the other
elements still hold the zero of `make`. -/
theorem Add_loop_eq (a b : ArrInt) : ∀ k : Nat, k ≤ min a.length b.length →
    (List.range k).foldl (Add.step a b) (some (List.replicate (min a.length b.length) 0)) =
      some ((List.zipWith (fun x y => wrapInt64 (x + y)) a b).take k ++
        List.replicate (min a.length b.length - k) 0) := by
  intro k
  induction k with
  | zero => intro _; simp
  | succ k ih =>
    intro hk
    rw [List.range_succ, List.foldl_append, ih (by omega)]
    have hka : k < a.length := by omega
    have hkb : k < b.length := by omega
    have hz : (List.zipWith (fun x y => wrapInt64 (x + y)) a b).length =
        min a.length b.length := by simp
    have htl : ((List.zipWith (fun x y => wrapInt64 (x + y)) a b).take k).length = k := by
      rw [List.length_take, hz]; omega
    simp only [List.foldl_cons, List.foldl_nil, Add.step, List.getElem?_eq_getElem hka,
      List.getElem?_eq_getElem hkb]
    rw [if_pos (by simp only [List.length_append, List.length_replicate, htl]; omega)]
    obtain ⟨r, hr⟩ : ∃ r, min a.length b.length - k = r + 1 :=
      ⟨min a.length b.length - k - 1, by omega⟩
    have hr2 : min a.length b.length - (k + 1) = r := by omega
    rw [hr, hr2, List.replicate_succ, List.set_append_right _ _ (by rw [htl])]
    have h0 : k - ((List.zipWith (fun x y => wrapInt64 (x + y)) a b).take k).length = 0 := by
      rw [htl]; omega
    rw [h0, List.set_cons_zero]
    have hts : (List.zipWith (fun x y => wrapInt64 (x + y)) a b).take (k + 1) =
        (List.zipWith (fun x y => wrapInt64 (x + y)) a b).take k ++ [wrapInt64 (a[k] + b[k])] := by
      rw [List.take_succ, List.getElem?_eq_getElem (by rw [hz]; omega)]
      simp
    rw [hts, List.append_assoc]
    rfl

/-- The length computed by `Add` is `min(len(a), len(b))`. -/
theorem Add.length_eq (a b : ArrInt) :
    (if (a.length : Int) - (b.length : Int) > 0 then (b.length : Int) else a.length).toNat =
      min a.length b.length := by
  split <;> omega

theorem Add_eq_zipWith (a b : ArrInt) :
    Add a b = some (List.zipWith (fun x y => wrapInt64 (x + y)) a b) := by
  unfold Add
  dsimp only
  rw [Add.length_eq, Add_loop_eq a b _ (le_refl _)]
  have hz : (List.zipWith (fun x y => wrapInt64 (x + y)) a b).length =
      min a.length b.length := by simp
  rw [← hz, List.take_length]
  simp

/-- C14. For all `ArrInt` values `a` and `b`, `Add(a, b)` returns (no index is out of range)
a slice, built from `make`, of length `min(len(a), len(b))` whose element `i` is the `int`
sum `a[i] + b[i]` for every index below that length; neither `a` nor `b` is written; and
`Add(a, b) = Add(b, a)`. -/
theorem Add_elementwise_sum (a b : ArrInt) :
    ∃ res, Add a b = some res ∧ res.length = min a.length b.length ∧
      (∀ (i : Nat) (ha : i < a.length) (hb : i < b.length),
        res[i]? = some (wrapInt64 (a[i] + b[i]))) ∧
      Add a b = Add b a := by
  refine ⟨_, Add_eq_zipWith a b, by simp, ?_, ?_⟩
  · intro i ha hb
    rw [List.getElem?_eq_getElem (by simp; omega), List.getElem_zipWith]
  · rw [Add_eq_zipWith a b, Add_eq_zipWith b a]
    congr 1
    apply List.ext_getElem
    · simp [Nat.min_comm]
    · intro i h1 h2
      rw [List.getElem_zipWith, List.getElem_zipWith, Int.add_comm]

/-! ## `mathSlice` -/

/-- The loop of `FoldSlice` over the indices of `rest` inside `pre ++ rest`. -/
theorem FoldSlice_loop_eq (op : Element → Element → Element) :
    ∀ (rest pre : Slice) (acc : Element),
      (List.range' pre.length rest.length).foldl (FoldSlice.step (pre ++ rest) op) (some acc) =
        some (rest.foldl op acc) := by
  intro rest
  induction rest with
  | nil => intro pre acc; rfl
  | cons y ys ih =>
    intro pre acc
    have hy : (pre ++ y :: ys)[pre.length]? = some y := by
      rw [List.getElem?_append_right (le_refl _), Nat.sub_self, List.getElem?_cons_zero]
    have hsplit : pre ++ y :: ys = (pre ++ [y]) ++ ys := by simp
    have hlen : (pre ++ [y]).length = pre.length + 1 := by simp
    simp only [List.length_cons, List.range'_succ, List.foldl_cons]
    have hstep : FoldSlice.step (pre ++ y :: ys) op (some acc) pre.length = some (op acc y) := by
      unfold FoldSlice.step
      rw [hy]
    rw [hstep, hsplit, ← hlen]
    exact ih (pre ++ [y]) (op acc y)

/-- C15. For every non-empty `Slice`, every binary `op` and every `init`,
`FoldSlice(slice, op, init)` returns the left fold
`op(...op(op(init, slice[0]), slice[1])..., slice[len-1])`; the slice is only read. -/
theorem FoldSlice_eq_foldl (slice : Slice) (op : Element → Element → Element)
    (init : Element) (hne : slice ≠ []) :
    FoldSlice slice op init = some (slice.foldl op init) := by
  match slice, hne with
  | x0 :: rest, _ =>
    unfold FoldSlice
    simp only [List.getElem?_cons_zero, List.length_cons, Nat.add_sub_cancel, List.foldl_cons]
    exact FoldSlice_loop_eq op rest [x0] (op init x0)

/-- The slice `{2, 4, 6}` of `main` (after the doubling): the product with `init = 1` is 48,
the sum with `init = 0` is 12. -/
theorem FoldSlice_eq_foldl_witness :
    FoldSlice [2, 4, 6] (fun x y => wrapInt64 (x * y)) 1 = some 48 ∧
      FoldSlice [2, 4, 6] (fun x y => wrapInt64 (x + y)) 0 = some 12 :=
  ⟨FoldSlice_eq_foldl [2, 4, 6] (fun x y => wrapInt64 (x * y)) 1 (by decide),
   FoldSlice_eq_foldl [2, 4, 6] (fun x y => wrapInt64 (x + y)) 0 (by decide)⟩

/-- The loop of `MapSlice` over the indices of `rest` inside `pre ++ rest`, for a function
value that does not write to the slice: the new elements are the results of the calls, the
arguments of the calls are the old elements, one call per element, in index order. -/
theorem MapSlice_loop_traced {τ : Type} (op : SliceOp τ)
    (hw : ∀ t s x, (op.apply t s x).2.1 = s) :
    ∀ (rest pre : Slice) (t : τ) (calls : List (Element × Element)),
      ∃ new t' calls',
        (List.range' pre.length rest.length).foldl (MapSlice.step (traced op))
            (some (pre ++ rest, (t, calls))) = some (pre ++ new, (t', calls ++ calls')) ∧
          calls'.map Prod.fst = rest ∧ calls'.map Prod.snd = new ∧
          ∀ f : Element → Element, (∀ t s x, (op.apply t s x).1 = f x) →
            new = rest.map f := by
  intro rest
  induction rest with
  | nil =>
    intro pre t calls
    exact ⟨[], t, [], by simp, rfl, rfl, fun _ _ => rfl⟩
  | cons y ys ih =>
    intro pre t calls
    have hy : (pre ++ y :: ys)[pre.length]? = some y := by
      rw [List.getElem?_append_right (le_refl _), Nat.sub_self, List.getElem?_cons_zero]
    have hset : (pre ++ y :: ys).set pre.length (op.apply t (pre ++ y :: ys) y).1 =
        (pre ++ [(op.apply t (pre ++ y :: ys) y).1]) ++ ys := by
      rw [List.set_append_right _ _ (le_refl _), Nat.sub_self, List.set_cons_zero]
      simp
    have hlen : (pre ++ [(op.apply t (pre ++ y :: ys) y).1]).length = pre.length + 1 := by
      simp
    have hstep : MapSlice.step (traced op) (some (pre ++ y :: ys, (t, calls))) pre.length =
        some ((pre ++ [(op.apply t (pre ++ y :: ys) y).1]) ++ ys,
          ((op.apply t (pre ++ y :: ys) y).2.2,
            calls ++ [(y, (op.apply t (pre ++ y :: ys) y).1)])) := by
      unfold MapSlice.step
      simp only [hy, traced, hw]
      rw [if_pos (by simp), hset]
    obtain ⟨new, t', calls', hrun, hfst, hsnd, hf⟩ :=
      ih (pre ++ [(op.apply t (pre ++ y :: ys) y).1]) (op.apply t (pre ++ y :: ys) y).2.2
        (calls ++ [(y, (op.apply t (pre ++ y :: ys) y).1)])
    refine ⟨(op.apply t (pre ++ y :: ys) y).1 :: new, t',
      (y, (op.apply t (pre ++ y :: ys) y).1) :: calls', ?_, ?_, ?_, ?_⟩
    · simp only [List.length_cons, List.range'_succ, List.foldl_cons]
      rw [hstep, ← hlen, hrun]
      simp
    · simp [hfst]
    · simp [hsnd]
    · intro f hfx
      rw [List.map_cons, hf f hfx, hfx]

/-- C16 fails as worded. With `s = {1, 2, 3}` and the closure
`op = func(e) { s[2] = 100; return e * 2 }`, `MapSlice(s, op)` leaves `[2 4 200]`: the
element at index 2 is not `op` of the element that was there before the call (`op` of 3 is
6), and the sum is 206, not 12. -/
theorem MapSlice_closure_writes_slice_counterexample :
    MapSlice [1, 2, 3] clobberingOp () = some ([2, 4, 200], ()) ∧
      (∀ s : Slice, (clobberingOp.apply () s 3).1 = 6) ∧
      (200 : Element) ≠ 6 ∧
      SumSlice [2, 4, 200] = 206 ∧
      SumSlice (([1, 2, 3] : Slice).map (fun e => wrapInt64 (e * 2))) = 12 := by
  refine ⟨by decide, ?_, by decide, by decide, by decide⟩
  intro s
  show wrapInt64 (3 * 2) = 6
  decide

/-- C16, amended. For every `Slice` and every function value `op` that does not write to the
elements of the slice, `MapSlice(slice, op)` returns; the slice afterwards has the same
length; `op` has been called exactly once per element, in index order, with the element that
was at that index before the call, and element `i` of the slice afterwards is the result of
call `i`; hence, when the result of `op` is a function `f` of its argument, the slice
afterwards is `f` of the old elements and `SumSlice` of it is the `int` sum of `f` over the
old elements. -/
theorem MapSlice_applies_op_once_per_element {τ : Type} (op : SliceOp τ)
    (hw : ∀ t s x, (op.apply t s x).2.1 = s) (slice : Slice) (t : τ) :
    ∃ res t' calls,
      MapSlice slice (traced op) (t, []) = some (res, (t', calls)) ∧
      res.length = slice.length ∧
      calls.map Prod.fst = slice ∧ calls.map Prod.snd = res ∧
      ∀ f : Element → Element, (∀ t s x, (op.apply t s x).1 = f x) →
        res = slice.map f ∧ SumSlice res = SumSlice (slice.map f) := by
  obtain ⟨new, t', calls, hrun, hfst, hsnd, hf⟩ := MapSlice_loop_traced op hw slice [] t []
  refine ⟨new, t', calls, ?_, ?_, hfst, hsnd, ?_⟩
  · unfold MapSlice
    rw [List.range_eq_range']
    simpa using hrun
  · rw [← hsnd, ← hfst, List.length_map, List.length_map]
  · intro f hfx
    rw [hf f hfx]
    exact ⟨rfl, rfl⟩

/-- The call of `main`: doubling `{1, 2, 3}` takes the sum from 6 to 12. -/
theorem MapSlice_applies_op_once_per_element_witness :
    (∃ res t' calls,
      MapSlice [1, 2, 3] (traced (pureOp (fun i => wrapInt64 (i * 2)))) ((), []) =
        some (res, (t', calls)) ∧
      res.length = ([1, 2, 3] : Slice).length ∧
      calls.map Prod.fst = [1, 2, 3] ∧ calls.map Prod.snd = res ∧
      ∀ f : Element → Element,
        (∀ t s x, ((pureOp (fun i => wrapInt64 (i * 2))).apply t s x).1 = f x) →
          res = ([1, 2, 3] : Slice).map f ∧
            SumSlice res = SumSlice (([1, 2, 3] : Slice).map f)) ∧
    SumSlice [1, 2, 3] = 6 ∧
    (MapSlice [1, 2, 3] (pureOp (fun i => wrapInt64 (i * 2))) ()).map
      (fun r => (r.1, SumSlice r.1)) = some ([2, 4, 6], 12) :=
  ⟨MapSlice_applies_op_once_per_element (pureOp (fun i => wrapInt64 (i * 2)))
      (fun _ _ _ => rfl) [1, 2, 3] (),
    by decide, by decide⟩

/-! ## `LimitingReader`: the budget over time, and nesting -/

/-- A sequence of `Read` calls followed by one more. -/
theorem Reader.run_append_one {σ : Type} (R : Reader σ) :
    ∀ (bufs : List (List Byte)) (s st : σ) (os : List Outcome) (p : List Byte)
      (out : ReadResult σ), R.run s bufs = some (st, os) → R.Read st p = some out →
      R.run s (bufs ++ [p]) =
        some (out.state, os ++ [{ buf := out.buf, n := out.n, err := out.err }]) := by
  intro bufs
  induction bufs with
  | nil =>
    intro s st os p out hrun hread
    cases hrun
    simp only [List.nil_append, Reader.run, hread]
  | cons q qs ih =>
    intro s st os p out hrun hread
    unfold Reader.run at hrun
    rw [List.cons_append]
    unfold Reader.run
    cases hq : R.Read s q with
    | none => rw [hq] at hrun; cases hrun
    | some r =>
      rw [hq] at hrun
      dsimp only at hrun ⊢
      cases hqs : R.run r.state qs with
      | none => rw [hqs] at hrun; cases hrun
      | some res =>
        obtain ⟨st', os'⟩ := res
        rw [hqs] at hrun
        cases hrun
        rw [ih r.state st os' p out hqs hread]
        rfl

/-- C17. For every budget `0 ≤ n` (a Go `int`) and every inner reader that obeys the stream
contract: after any sequence of `Read` calls `bytesLeft` equals `n` minus the counts
delivered so far and is non-negative, and one more `Read` returns, leaves `bytesLeft`
non-negative, not larger than before, and again equal to `n` minus the counts delivered so
far. -/
theorem LimitingReader_bytesLeft_invariant {σ : Type} (R : Reader σ) (hR : R.Obeys) (s : σ)
    (n : Int) (hn : 0 ≤ n) (hn63 : n < 2 ^ 63) (bufs : List (List Byte)) (p : List Byte) :
    ∃ st os st' o,
      (limitReader R).run (LimitReader s n) bufs = some (st, os) ∧
      (limitReader R).run (LimitReader s n) (bufs ++ [p]) = some (st', os ++ [o]) ∧
      st.bytesLeft = n - totalCount os ∧ 0 ≤ st.bytesLeft ∧
      st'.bytesLeft = n - totalCount (os ++ [o]) ∧ 0 ≤ st'.bytesLeft ∧
      st'.bytesLeft ≤ st.bytesLeft := by
  obtain ⟨st, os, hrun, _, hst, hst0, hall⟩ :=
    LimitingReader.run_invariant R hR bufs s n hn hn63
  have htc : 0 ≤ totalCount os := by
    apply List.sum_nonneg
    intro x hx
    obtain ⟨o, ho, rfl⟩ := List.mem_map.mp hx
    exact hall o ho
  obtain ⟨res, hres, h0, hle, _, hleft⟩ :=
    LimitingReader.Read_step_obeys R hR st.reader st.bytesLeft p hst0 (by omega)
  have hrun2 := Reader.run_append_one (limitReader R) bufs (LimitReader s n) st os p res hrun
    (by rw [limitReader_Read]; exact hres)
  refine ⟨st, os, res.state, _, hrun, hrun2, hst, hst0, ?_, by omega, by omega⟩
  rw [hleft, hst]
  simp only [totalCount, List.map_append, List.sum_append, List.map_cons, List.map_nil,
    List.sum_cons, List.sum_nil]
  omega

/-- Budget 4 over the literal of `main`: after a 3-byte pull, a 3-byte pull delivers the one
byte still owed. -/
theorem LimitingReader_bytesLeft_invariant_witness :
    ∃ st os st' o,
      (limitReader stringsReader).run (LimitReader (StringsReader.NewReader mainLiteral) 4)
        [[0, 0, 0]] = some (st, os) ∧
      (limitReader stringsReader).run (LimitReader (StringsReader.NewReader mainLiteral) 4)
        ([[0, 0, 0]] ++ [[0, 0, 0]]) = some (st', os ++ [o]) ∧
      st.bytesLeft = 4 - totalCount os ∧ 0 ≤ st.bytesLeft ∧
      st'.bytesLeft = 4 - totalCount (os ++ [o]) ∧ 0 ≤ st'.bytesLeft ∧
      st'.bytesLeft ≤ st.bytesLeft :=
  LimitingReader_bytesLeft_invariant stringsReader stringsReader_obeys
    (StringsReader.NewReader mainLiteral) 4 (by decide) (by decide) [[0, 0, 0]] [0, 0, 0]

theorem spy_obeys {σ : Type} (R : Reader σ) (hR : R.Obeys) : (spy R).Obeys := by
  intro s p
  obtain ⟨out, hout, h0, hle⟩ := hR s.1 p
  refine ⟨{ state := (out.state, s.2 ++ [p]), buf := out.buf, n := out.n, err := out.err },
    ?_, h0, hle⟩
  show (match R.Read s.1 p with
        | none => none
        | some out => _) = _
  rw [hout]

/-- The part of the caller's buffer outside the view of the inner decorator, put together
from the two truncations. -/
theorem drop_take_append_drop (p : List Byte) (m2 m1 : Nat) (h : m2 ≤ m1) :
    (p.take m1).drop m2 ++ p.drop m1 = p.drop m2 := by
  rw [List.drop_take]
  have : p.drop m1 = (p.drop m2).drop (m1 - m2) := by
    rw [List.drop_drop]; congr 1; omega
  rw [this, List.take_append_drop]

/-- One `Read` of the nested decorator and of the single decorator with the smaller budget,
from states that hold the same inner state and budgets `a`, `b` and `min a b`: same buffer,
count and error, same inner state afterwards, and the budgets are again `a - k`, `b - k` and
their minimum. -/
theorem LimitingReader.Read_nested_step {σ : Type} (R : Reader σ) (hR : R.Obeys) (s : σ)
    (a b : Int) (p : List Byte) (ha : 0 ≤ a) (ha63 : a < 2 ^ 63) (hb : 0 ≤ b)
    (hb63 : b < 2 ^ 63) :
    ∃ (s' : σ) (q : List Byte) (k : Int) (e : Err),
      LimitingReader.Read (limitReader R)
          { reader := { reader := s, bytesLeft := a }, bytesLeft := b } p =
        some { state := { reader := { reader := s', bytesLeft := a - k }, bytesLeft := b - k }
               buf := q, n := k, err := e } ∧
      LimitingReader.Read R { reader := s, bytesLeft := min a b } p =
        some { state := { reader := s', bytesLeft := min a b - k }, buf := q, n := k, err := e } ∧
      0 ≤ k ∧ k ≤ a ∧ k ≤ b := by
  rcases eq_or_lt_of_le hb with hb0 | hbpos
  · subst hb0
    refine ⟨s, p, 0, Err.EOF, ?_, ?_, le_refl _, ha, le_refl _⟩
    · rw [LimitingReader.Read_of_zero _ _ _ rfl]; simp
    · rw [LimitingReader.Read_of_zero _ _ _ (by simp [ha])]; simp [ha]
  · rcases eq_or_lt_of_le ha with ha0 | hapos
    · subst ha0
      refine ⟨s, p, 0, Err.EOF, ?_, ?_, le_refl _, le_refl _, hb⟩
      · rw [LimitingReader.Read_of_pos _ _ _ hbpos, limitReader_Read,
          LimitingReader.Read_of_zero _ _ _ rfl]
        simp only [Option.map_some', sub_zero, List.take_append_drop]
        rw [wrapInt64_of_range _ (by omega) (by omega)]
      · rw [LimitingReader.Read_of_zero _ _ _ (by simp [hb])]; simp [hb]
    · have hmin : 0 < min a b := lt_min hapos hbpos
      have hv : (p.take (min p.length b.toNat)).take
          (min (p.take (min p.length b.toNat)).length a.toNat) =
          p.take (min p.length (min a b).toNat) := by
        rw [List.take_take, List.length_take]
        congr 1
        omega
      have hvl : (p.take (min p.length (min a b).toNat)).length =
          min p.length (min a b).toNat := by
        rw [List.length_take]; omega
      obtain ⟨out, hout, h0, hle⟩ := hR s (p.take (min p.length (min a b).toNat))
      rw [hvl] at hle
      have hol : out.buf.length = min p.length (min a b).toNat := by
        rw [R.len_ok _ _ _ hout, hvl]
      refine ⟨out.state, out.buf ++ p.drop (min p.length (min a b).toNat), out.n, out.err,
        ?_, ?_, h0, by omega, by omega⟩
      · rw [LimitingReader.Read_of_pos _ _ _ hbpos, limitReader_Read,
          LimitingReader.Read_of_pos _ _ _ hapos]
        dsimp only
        rw [hv, hout]
        simp only [Option.map_some']
        rw [wrapInt64_of_range _ (by omega) (by omega),
          wrapInt64_of_range _ (by omega) (by omega), List.append_assoc]
        have hm : min (p.take (min p.length b.toNat)).length a.toNat =
            min p.length (min a b).toNat := by
          rw [List.length_take]; omega
        rw [hm, drop_take_append_drop p _ _ (by omega)]
      · rw [LimitingReader.Read_of_pos _ _ _ hmin]
        dsimp only
        rw [hout]
        simp only [Option.map_some']
        rw [wrapInt64_of_range _ (by omega) (by omega)]

/-- C18. For all budgets `0 ≤ a`, `0 ≤ b` (Go `int`s), every inner reader `r` that obeys the
stream contract and every sequence of `Read` buffers, `LimitReader(LimitReader(r, a), b)` and
`LimitReader(r, min(a, b))` both answer every call, with the same counts, errors and buffer
contents call by call, and leave `r` in the same state after the same record of calls made
to it. -/
theorem LimitReader_nested_eq_min {σ : Type} (R : Reader σ) (hR : R.Obeys) (s : σ)
    (a b : Int) (ha : 0 ≤ a) (ha63 : a < 2 ^ 63) (hb : 0 ≤ b) (hb63 : b < 2 ^ 63)
    (bufs : List (List Byte)) :
    ∃ sa sb os,
      (limitReader (limitReader (spy R))).run (LimitReader (LimitReader (s, []) a) b) bufs =
        some (sa, os) ∧
      (limitReader (spy R)).run (LimitReader (s, []) (min a b)) bufs = some (sb, os) ∧
      os.length = bufs.length ∧ sa.reader.reader = sb.reader := by
  obtain ⟨sa, sb, os, h1, h2, hlen, hsim⟩ :=
    Reader.run_eq_of_sim (limitReader (limitReader (spy R))) (limitReader (spy R))
      (fun N M => ∃ t x y, N = { reader := { reader := t, bytesLeft := x }, bytesLeft := y } ∧
        M = { reader := t, bytesLeft := min x y } ∧ 0 ≤ x ∧ x < 2 ^ 63 ∧ 0 ≤ y ∧ y < 2 ^ 63)
      (by
        rintro N M p ⟨t, x, y, rfl, rfl, hx, hx63, hy, hy63⟩
        obtain ⟨t', q, k, e, hN, hM, hk0, hkx, hky⟩ :=
          LimitingReader.Read_nested_step (spy R) (spy_obeys R hR) t x y p hx hx63 hy hy63
        refine ⟨_, _, hN, hM, rfl, rfl, rfl, t', x - k, y - k, rfl, ?_, by omega, by omega,
          by omega, by omega⟩
        show LimitingReader.mk t' (min x y - k) = LimitingReader.mk t' (min (x - k) (y - k))
        congr 1
        omega)
      bufs (LimitReader (LimitReader (s, []) a) b) (LimitReader (s, []) (min a b))
      ⟨(s, []), a, b, rfl, rfl, ha, ha63, hb, hb63⟩
  obtain ⟨t, x, y, rfl, rfl, _⟩ := hsim
  exact ⟨_, _, os, h1, h2, hlen, rfl⟩

/-- Budgets 6 inside and 4 outside over the literal of `main`, pulled with buffers of 3, 3
and 2 bytes, against the single budget `min 6 4`. -/
theorem LimitReader_nested_eq_min_witness :
    ∃ sa sb os,
      (limitReader (limitReader (spy stringsReader))).run
        (LimitReader (LimitReader (StringsReader.NewReader mainLiteral, []) 6) 4)
        [[0, 0, 0], [0, 0, 0], [0, 0]] = some (sa, os) ∧
      (limitReader (spy stringsReader)).run
        (LimitReader (StringsReader.NewReader mainLiteral, []) (min 6 4))
        [[0, 0, 0], [0, 0, 0], [0, 0]] = some (sb, os) ∧
      os.length = [[0, 0, 0], [0, 0, 0], [(0 : Byte), 0]].length ∧
      sa.reader.reader = sb.reader :=
  LimitReader_nested_eq_min stringsReader stringsReader_obeys
    (StringsReader.NewReader mainLiteral) 6 4 (by decide) (by decide) (by decide) (by decide)
    [[0, 0, 0], [0, 0, 0], [0, 0]]

/-! ## Two-sum -/

/-- A loop that appends `g x` for the elements `x` that pass a test. -/
theorem foldl_append_if {α β : Type} (c : α → Prop) [DecidablePred c] (g : α → β) :
    ∀ (l : List α) (ret : List β),
      l.foldl (fun r x => if c x then r ++ [g x] else r) ret =
        ret ++ (l.filter (fun x => decide (c x))).map g := by
  intro l
  induction l with
  | nil => intro ret; simp
  | cons x l ih =>
    intro ret
    rw [List.foldl_cons, ih]
    by_cases hc : c x
    · have hf : (x :: l).filter (fun x => decide (c x)) =
          x :: l.filter (fun x => decide (c x)) :=
        List.filter_cons_of_pos (decide_eq_true hc)
      rw [if_pos hc, hf, List.map_cons, List.append_assoc, List.singleton_append]
    · have hf : (x :: l).filter (fun x => decide (c x)) = l.filter (fun x => decide (c x)) :=
        List.filter_cons_of_neg (by simpa using hc)
      rw [if_neg hc, hf]

theorem firstSolution.inner_foldl (number : Int) (array : List Int) (i : Nat)
    (l : List Nat) (ret : List String) :
    l.foldl (firstSolution.inner number array i) ret =
      ret ++ ((l.filter (fun j =>
        decide (wrapInt64 (array.getD i 0 + array.getD j 0) = number))).map
          (fun j => (i, j))).map (messageOf array) := by
  rw [List.map_map]
  exact foldl_append_if (fun j => wrapInt64 (array.getD i 0 + array.getD j 0) = number)
    (fun j => pairMessage (array.getD i 0) (array.getD j 0) i j) l ret

theorem firstSolution.outer_foldl (number : Int) (array : List Int) :
    ∀ (l : List Nat) (ret : List String),
      l.foldl (firstSolution.outer number array) ret =
        ret ++ (l.flatMap (fun i =>
          ((List.range' (i + 1) (array.length - (i + 1))).filter (fun j =>
            decide (wrapInt64 (array.getD i 0 + array.getD j 0) = number))).map
              (fun j => (i, j)))).map (messageOf array) := by
  intro l
  induction l with
  | nil => intro ret; simp
  | cons i l ih =>
    intro ret
    rw [List.foldl_cons, ih]
    unfold firstSolution.outer
    rw [firstSolution.inner_foldl, List.flatMap_cons, List.map_append, List.append_assoc]

theorem firstSolution_eq_pairs (number : Int) (array : List Int) :
    firstSolution number array = (firstSolution.pairs number array).map (messageOf array) := by
  unfold firstSolution firstSolution.pairs
  rw [firstSolution.outer_foldl, List.nil_append]

theorem foldl_append_singleton {α β : Type} (g : α → β) : ∀ (l : List α) (ret : List β),
    l.foldl (fun r x => r ++ [g x]) ret = ret ++ l.map g := by
  intro l
  induction l with
  | nil => intro ret; simp
  | cons x l ih => intro ret; rw [List.foldl_cons, ih]; simp

/-- The loop of `secondSolution` after `k` iterations: the messages of the pairs `(idx, i)`
with `i < k`, and in `m`, under every key, the indices below `k` that hold that value, in
increasing order. -/
theorem secondSolution.loop_invariant (number : Int) (array : List Int) : ∀ k : Nat,
    ((List.range k).foldl (secondSolution.step number array)
        { returnSlice := [], m := fun _ => none }).returnSlice =
      ((List.range k).flatMap (fun i =>
        ((List.range i).filter
          (fun idx => decide (array.getD idx 0 = wrapInt64 (number - array.getD i 0)))).map
          (fun idx => (idx, i)))).map (messageOf array) ∧
    ∀ key : Int,
      (((List.range k).foldl (secondSolution.step number array)
        { returnSlice := [], m := fun _ => none }).m key).getD [] =
        (List.range k).filter (fun idx => decide (array.getD idx 0 = key)) := by
  intro k
  induction k with
  | zero => exact ⟨rfl, fun _ => rfl⟩
  | succ k ih =>
    obtain ⟨hret, hm⟩ := ih
    rw [List.range_succ, List.foldl_append]
    simp only [List.foldl_cons, List.foldl_nil]
    generalize (List.range k).foldl (secondSolution.step number array)
      { returnSlice := [], m := fun _ => none } = st at hret hm
    constructor
    · have hstep : (secondSolution.step number array st k).returnSlice =
          st.returnSlice ++ (((st.m (wrapInt64 (number - array.getD k 0))).getD []).map
            (fun idx => (idx, k))).map (messageOf array) := by
        unfold secondSolution.step
        dsimp only
        cases hlk : st.m (wrapInt64 (number - array.getD k 0)) with
        | none => simp
        | some indices =>
          dsimp only
          rw [foldl_append_singleton, List.map_map]
          rfl
      rw [hstep, hret, hm, List.flatMap_append, List.map_append]
      simp only [List.flatMap_cons, List.flatMap_nil, List.append_nil]
    · intro key
      have hstep : (secondSolution.step number array st k).m key =
          if key = array.getD k 0 then some ((st.m (array.getD k 0)).getD [] ++ [k])
          else st.m key := rfl
      rw [hstep, List.filter_append]
      by_cases hkey : key = array.getD k 0
      · rw [if_pos hkey, Option.getD_some, hm, hkey]
        have : [k].filter (fun idx => decide (array.getD idx 0 = array.getD k 0)) = [k] :=
          List.filter_cons_of_pos (decide_eq_true rfl)
        rw [this]
      · rw [if_neg hkey, hm]
        have : [k].filter (fun idx => decide (array.getD idx 0 = key)) = [] :=
          List.filter_cons_of_neg (by
            rw [decide_eq_true_eq]
            exact fun h => hkey h.symm)
        rw [this, List.append_nil]

theorem secondSolution_eq_pairs (number : Int) (array : List Int) :
    secondSolution number array =
      (secondSolution.pairs number array).map (messageOf array) :=
  (secondSolution.loop_invariant number array array.length).1

/-- In `int` arithmetic, `x == number - v` and `x + v == number` say the same. -/
theorem wrapInt64_sub_eq_iff (number x v : Int) (hn : -(2 ^ 63) ≤ number ∧ number < 2 ^ 63)
    (hx : -(2 ^ 63) ≤ x ∧ x < 2 ^ 63) :
    x = wrapInt64 (number - v) ↔ wrapInt64 (x + v) = number := by
  unfold wrapInt64
  omega

theorem firstSolution_mem_pairs (number : Int) (array : List Int) (i j : Nat) :
    (i, j) ∈ firstSolution.pairs number array ↔
      i < j ∧ j < array.length ∧ wrapInt64 (array.getD i 0 + array.getD j 0) = number := by
  unfold firstSolution.pairs
  rw [List.mem_flatMap]
  constructor
  · rintro ⟨a, ha, hmem⟩
    rw [List.mem_map] at hmem
    obtain ⟨b, hb, hab⟩ := hmem
    rw [List.mem_filter, List.mem_range'_1, decide_eq_true_eq] at hb
    rw [List.mem_range] at ha
    cases hab
    exact ⟨by omega, by omega, hb.2⟩
  · rintro ⟨hij, hj, hc⟩
    refine ⟨i, List.mem_range.mpr (by omega), List.mem_map.mpr ⟨j, ?_, rfl⟩⟩
    rw [List.mem_filter, List.mem_range'_1, decide_eq_true_eq]
    exact ⟨⟨by omega, by omega⟩, hc⟩

theorem secondSolution_mem_pairs (number : Int) (array : List Int) (i j : Nat) :
    (i, j) ∈ secondSolution.pairs number array ↔
      i < j ∧ j < array.length ∧
        array.getD i 0 = wrapInt64 (number - array.getD j 0) := by
  unfold secondSolution.pairs
  rw [List.mem_flatMap]
  constructor
  · rintro ⟨a, ha, hmem⟩
    rw [List.mem_map] at hmem
    obtain ⟨b, hb, hab⟩ := hmem
    rw [List.mem_filter, List.mem_range, decide_eq_true_eq] at hb
    rw [List.mem_range] at ha
    cases hab
    exact ⟨hb.1, ha, hb.2⟩
  · rintro ⟨hij, hj, hc⟩
    refine ⟨j, List.mem_range.mpr hj, List.mem_map.mpr ⟨i, ?_, rfl⟩⟩
    rw [List.mem_filter, List.mem_range, decide_eq_true_eq]
    exact ⟨hij, hc⟩

theorem firstSolution_nodup_pairs (number : Int) (array : List Int) :
    (firstSolution.pairs number array).Nodup := by
  unfold firstSolution.pairs
  rw [List.nodup_flatMap]
  constructor
  · intro i _
    exact ((List.nodup_range' _ _).filter _).map (fun x y h => (Prod.mk.inj h).2)
  · refine (List.nodup_range array.length).imp ?_
    intro a b hab x hxa hxb
    obtain ⟨_, _, rfl⟩ := List.mem_map.mp hxa
    obtain ⟨_, _, h⟩ := List.mem_map.mp hxb
    exact hab (Prod.mk.inj h).1.symm

theorem secondSolution_nodup_pairs (number : Int) (array : List Int) :
    (secondSolution.pairs number array).Nodup := by
  unfold secondSolution.pairs
  rw [List.nodup_flatMap]
  constructor
  · intro i _
    exact ((List.nodup_range _).filter _).map (fun x y h => (Prod.mk.inj h).1)
  · refine (List.nodup_range array.length).imp ?_
    intro a b hab x hxa hxb
    obtain ⟨_, _, rfl⟩ := List.mem_map.mp hxa
    obtain ⟨_, _, h⟩ := List.mem_map.mp hxb
    exact hab (Prod.mk.inj h).2.symm

theorem getD_in_int64 (array : List Int)
    (harr : ∀ x ∈ array, -(2 ^ 63) ≤ x ∧ x < 2 ^ 63) (i : Nat) :
    -(2 ^ 63) ≤ array.getD i 0 ∧ array.getD i 0 < 2 ^ 63 := by
  rw [List.getD_eq_getElem?_getD]
  cases h : array[i]? with
  | none => exact ⟨by decide, by decide⟩
  | some x => exact harr x (List.getElem?_mem h)

/-- C19. For every target `number` and every `int` slice `array` (values of type `int`),
`firstSolution` and `secondSolution` return the same messages up to order: each returns the
messages `"a[i] + a[j], i : j"` of a duplicate-free list of index pairs that holds exactly
the pairs `i < j` with `array[i] + array[j] == number` in wrapping `int` arithmetic, so the
one result is a permutation of the other; and both return `nil` when there is no such
pair. -/
theorem firstSolution_perm_secondSolution (number : Int) (array : List Int)
    (hnum : -(2 ^ 63) ≤ number ∧ number < 2 ^ 63)
    (harr : ∀ x ∈ array, -(2 ^ 63) ≤ x ∧ x < 2 ^ 63) :
    ∃ ps1 ps2 : List (Nat × Nat),
      firstSolution number array = ps1.map (messageOf array) ∧
      secondSolution number array = ps2.map (messageOf array) ∧
      ps1.Nodup ∧ ps2.Nodup ∧
      (∀ i j, (i, j) ∈ ps1 ↔
        i < j ∧ j < array.length ∧ wrapInt64 (array.getD i 0 + array.getD j 0) = number) ∧
      (∀ i j, (i, j) ∈ ps2 ↔
        i < j ∧ j < array.length ∧ wrapInt64 (array.getD i 0 + array.getD j 0) = number) ∧
      ps1.Perm ps2 ∧
      (firstSolution number array).Perm (secondSolution number array) ∧
      ((∀ i j, i < j → j < array.length →
          wrapInt64 (array.getD i 0 + array.getD j 0) ≠ number) →
        firstSolution number array = [] ∧ secondSolution number array = []) := by
  have hm1 := firstSolution_mem_pairs number array
  have hm2 : ∀ i j, (i, j) ∈ secondSolution.pairs number array ↔
      i < j ∧ j < array.length ∧ wrapInt64 (array.getD i 0 + array.getD j 0) = number := by
    intro i j
    rw [secondSolution_mem_pairs,
      wrapInt64_sub_eq_iff number _ (array.getD j 0) hnum (getD_in_int64 array harr i)]
  have hperm : (firstSolution.pairs number array).Perm (secondSolution.pairs number array) := by
    rw [List.perm_ext_iff_of_nodup (firstSolution_nodup_pairs number array)
      (secondSolution_nodup_pairs number array)]
    rintro ⟨i, j⟩
    rw [hm1, hm2]
  refine ⟨firstSolution.pairs number array, secondSolution.pairs number array,
    firstSolution_eq_pairs number array, secondSolution_eq_pairs number array,
    firstSolution_nodup_pairs number array, secondSolution_nodup_pairs number array,
    hm1, hm2, hperm, ?_, ?_⟩
  · rw [firstSolution_eq_pairs, secondSolution_eq_pairs]
    exact hperm.map _
  · intro hnone
    have h1 : firstSolution.pairs number array = [] := by
      apply List.eq_nil_iff_forall_not_mem.mpr
      rintro ⟨i, j⟩ hmem
      obtain ⟨hij, hj, hc⟩ := (hm1 i j).mp hmem
      exact hnone i j hij hj hc
    have h2 : secondSolution.pairs number array = [] := by
      apply List.eq_nil_iff_forall_not_mem.mpr
      rintro ⟨i, j⟩ hmem
      obtain ⟨hij, hj, hc⟩ := (hm2 i j).mp hmem
      exact hnone i j hij hj hc
    rw [firstSolution_eq_pairs, secondSolution_eq_pairs, h1, h2]
    exact ⟨rfl, rfl⟩

/-- The call of `main`: target `k = 8` over `A`. -/
theorem firstSolution_perm_secondSolution_witness :
    ∃ ps1 ps2 : List (Nat × Nat),
      firstSolution 8 twoSumA = ps1.map (messageOf twoSumA) ∧
      secondSolution 8 twoSumA = ps2.map (messageOf twoSumA) ∧
      ps1.Nodup ∧ ps2.Nodup ∧
      (∀ i j, (i, j) ∈ ps1 ↔
        i < j ∧ j < twoSumA.length ∧ wrapInt64 (twoSumA.getD i 0 + twoSumA.getD j 0) = 8) ∧
      (∀ i j, (i, j) ∈ ps2 ↔
        i < j ∧ j < twoSumA.length ∧ wrapInt64 (twoSumA.getD i 0 + twoSumA.getD j 0) = 8) ∧
      ps1.Perm ps2 ∧
      (firstSolution 8 twoSumA).Perm (secondSolution 8 twoSumA) ∧
      ((∀ i j, i < j → j < twoSumA.length →
          wrapInt64 (twoSumA.getD i 0 + twoSumA.getD j 0) ≠ 8) →
        firstSolution 8 twoSumA = [] ∧ secondSolution 8 twoSumA = []) :=
  firstSolution_perm_secondSolution 8 twoSumA (by decide) (by decide)

end GoNalg
